import Mathlib

/-!
# Verification of the ad-lids folder-inventory and consolidation engine

Shallow embedding of the core logic of the repository (`src/modules/summarizer.py`
and `src/modules/query.py`) and proofs for the frozen claims.

Modelling conventions:
* a pandas scalar cell is `CellV := Option String`: `none` models missing
  (`None` / `NaN` / `NaT`), `some s` models a value whose Python `str()` is `s`;
* a `DataFrame` is a `Table`: an ordered list of column names together with a
  list of rows, each row a total function from column name to cell (a cell of a
  column outside `cols` is never consulted);
* pandas stable sorts (`kind="mergesort"`) are modelled with
  `List.insertionSort`, which is stable for the keyed `≤`-relations used here;
* sort keys with `na_position="last"` semantics are mapped into `WithTop`
  orders (missing = `⊤`);
* the external library parsers `pd.to_numeric` / `pd.to_datetime` and the
  dtype test `is_datetime64_any_dtype` are collaborator functions; they are
  parameters of the model (`PandasOps`), so theorems hold for any behaviour of
  those collaborators.
-/

/-- A pandas cell: `none` is missing (None/NaN/NaT), `some s` a scalar whose
string form is `s`. -/
abbrev CellV := Option String

/-- A DataFrame row: the cell stored under each column name. -/
abbrev Row := String → CellV

/-- A DataFrame: ordered column names and the list of rows. -/
structure Table where
  cols : List String
  rows : List Row

/-- Keyed comparison: `keyLe f a b` iff `f a ≤ f b`.  This is the order used by
`sort_values(by=key, kind="mergesort")` for a single composite key. -/
def keyLe {α : Type} {β : Type} [LinearOrder β] (f : α → β) (a b : α) : Prop :=
  f a ≤ f b

instance {α : Type} {β : Type} [LinearOrder β] (f : α → β) : DecidableRel (keyLe f) :=
  fun a b => inferInstanceAs (Decidable (f a ≤ f b))

instance {α : Type} {β : Type} [LinearOrder β] (f : α → β) : IsTotal α (keyLe f) :=
  ⟨fun a b => le_total (f a) (f b)⟩

instance {α : Type} {β : Type} [LinearOrder β] (f : α → β) : IsTrans α (keyLe f) :=
  ⟨fun _ _ _ h₁ h₂ => le_trans h₁ h₂⟩

/-- `pandas.Series.drop_duplicates` / `.unique()`: keep the first occurrence of
each value, in order of appearance.  `seen` accumulates values already kept. -/
def dropDupAux {β : Type} [DecidableEq β] : List β → List β → List β
  | [], _ => []
  | a :: l, seen => if a ∈ seen then dropDupAux l seen else a :: dropDupAux l (a :: seen)

/-- Keep-first deduplication, as `drop_duplicates` does. -/
def dropDuplicates {β : Type} [DecidableEq β] (l : List β) : List β :=
  dropDupAux l []

/-- `compute_target_week_folders` (summarizer.py): the `horizon` folder names
`"Week {w} Final Week {w+1} Initial"` for `w = W, ..., W+horizon-1`. -/
def compute_target_week_folders (sundayweeknumber : ℕ) (horizon : ℕ := 3) : List String :=
  (List.range' sundayweeknumber horizon).map
    (fun w => s!"Week {w} Final Week {w+1} Initial")

/-- C5: for every reference week `W` and horizon `H` the Week Resolver computes
exactly `H` target names `"Week {w} Final Week {w+1} Initial"` for
`w = W, ..., W+H-1` in that order; in particular `W=46, H=3` yields the three
listed folder names. -/
theorem C5_week_resolver_targets :
    (∀ (W H : ℕ), (compute_target_week_folders W H).length = H ∧
      ∀ i, i < H →
        (compute_target_week_folders W H).getD i "" =
          s!"Week {W+i} Final Week {W+i+1} Initial") ∧
    compute_target_week_folders 46 3 =
      ["Week 46 Final Week 47 Initial", "Week 47 Final Week 48 Initial",
       "Week 48 Final Week 49 Initial"] := by
  constructor
  · intro W H
    constructor
    · simp [compute_target_week_folders]
    · intro i hi
      have hlen : i < ((List.range' W H).map
          (fun w => s!"Week {w} Final Week {w+1} Initial")).length := by
        simpa using hi
      rw [compute_target_week_folders, List.getD_eq_getElem _ _ hlen]
      simp [List.getElem_range']
  · rfl

/-- Witness for C5 at `W = 46`, `H = 3`, `i = 1`. -/
theorem C5_week_resolver_targets_witness :
    (compute_target_week_folders 46 3).getD 1 "" = "Week 47 Final Week 48 Initial" :=
  (C5_week_resolver_targets.1 46 3).2 1 (by decide)

/-! ## Price/Date Cell Cleaner (`_parse_dates_explicit`, `_clean_ad_lid_price`) -/

/-- Python `str.strip()` on the character list: drop whitespace from both ends. -/
def pyStripChars (l : List Char) : List Char :=
  ((l.dropWhile Char.isWhitespace).reverse.dropWhile Char.isWhitespace).reverse

/-- Python `str.strip()`. -/
def pyStrip (s : String) : String :=
  String.mk (pyStripChars s.data)

/-- `_strip_if_str`: strip whitespace on strings, leave other values alone
(missing stays missing). -/
def stripCell : CellV → CellV
  | Option.none => Option.none
  | some s => some (pyStrip s)

/-- `_to_str` inside `_parse_dates_explicit`: `None`/`NaN` become `""`, any
other value becomes its string form (which is how `CellV` stores it). -/
def cellToStr : CellV → String
  | Option.none => ""
  | some s => s

/-- Keep only digits and periods: the `re.sub`-style
`.str.replace(r"[^0-9.]", "", regex=True)` of the cleaner. -/
def cleanPriceChars (s : String) : String :=
  String.mk (s.data.filter (fun c => c.isDigit || c == '.'))

/-- `_parse_dates_explicit`: returns the date-like mask (cleaned length > 7)
and the cleaned digit/period strings, index-aligned with the input. -/
def parse_dates_explicit (series : List CellV) : List Bool × List String :=
  let cleaned := series.map (fun v => cleanPriceChars (cellToStr v))
  (cleaned.map (fun c => decide (c.length > 7)), cleaned)

/-- `_clean_ad_lid_price`: strip strings, return all-missing for a native
datetime column, otherwise mask date-like cells to missing and turn empty
cleaned strings into missing. -/
def clean_ad_lid_price (isDatetimeDtype : Bool) (series : List CellV) : List CellV :=
  let s := series.map stripCell
  if isDatetimeDtype then s.map (fun _ => Option.none)
  else
    let mc := parse_dates_explicit s
    (mc.1.zip mc.2).map (fun p =>
      if p.1 then Option.none else if p.2 = "" then Option.none else some p.2)

/-- The output cell the claim describes: stringify (missing to `""`), strip all
characters except digits and periods, force missing exactly when the cleaned
string is longer than 7 characters or empty, otherwise keep the cleaned
string. -/
def claimedCleanCell (v : CellV) : CellV :=
  let cl := cleanPriceChars (cellToStr v)
  if cl.length > 7 ∨ cl = "" then Option.none else some cl

theorem whitespace_not_kept {c : Char} (h : c.isWhitespace = true) :
    (c.isDigit || c == '.') = false := by
  simp only [Char.isWhitespace, Bool.or_eq_true, decide_eq_true_eq] at h
  rcases h with ((h | h) | h) | h <;> subst h <;> decide

theorem filter_dropWhile_of_none_kept {p keep : Char → Bool}
    (hpk : ∀ c, p c = true → keep c = false) :
    ∀ l : List Char, (l.dropWhile p).filter keep = l.filter keep := by
  intro l
  induction l with
  | nil => rfl
  | cons a l ih =>
    by_cases ha : p a = true
    · rw [List.dropWhile_cons_of_pos ha, ih, List.filter_cons_of_neg]
      simp [hpk a ha]
    · rw [List.dropWhile_cons_of_neg ha]

/-- Stripping whitespace never changes the digit/period-filtered string. -/
theorem cleanPriceChars_pyStrip (s : String) :
    cleanPriceChars (pyStrip s) = cleanPriceChars s := by
  have hpk : ∀ c : Char, c.isWhitespace = true → (c.isDigit || c == '.') = false :=
    fun c hc => whitespace_not_kept hc
  have hl : (pyStripChars s.data).filter (fun c => c.isDigit || c == '.') =
      s.data.filter (fun c => c.isDigit || c == '.') := by
    rw [pyStripChars, List.filter_reverse, filter_dropWhile_of_none_kept hpk,
      List.filter_reverse, List.reverse_reverse, filter_dropWhile_of_none_kept hpk]
  simpa [cleanPriceChars, pyStrip] using congrArg String.mk hl

theorem cleanPriceChars_stripCell (v : CellV) :
    cleanPriceChars (cellToStr (stripCell v)) = cleanPriceChars (cellToStr v) := by
  cases v with
  | none => rfl
  | some s => exact cleanPriceChars_pyStrip s

/-- C1: on a native datetime column every output is missing; otherwise each
cell is stringified, its non-digit/period characters removed, and the result
is missing exactly when the cleaned string exceeds 7 characters or is empty,
else it is the cleaned string; the three sample cells behave as listed. -/
theorem C1_price_cleaner :
    (∀ series : List CellV, clean_ad_lid_price true series =
      series.map (fun _ => Option.none)) ∧
    (∀ series : List CellV, clean_ad_lid_price false series =
      series.map claimedCleanCell) ∧
    clean_ad_lid_price false
        [some "2025-10-18 00:00:00", some "$ 34.95", some "13.5", some "", Option.none] =
      [Option.none, some "34.95", some "13.5", Option.none, Option.none] := by
  have hzip : ∀ cl : List String,
      ((cl.map (fun c => decide (c.length > 7))).zip cl).map (fun p =>
          if p.1 then Option.none else if p.2 = "" then Option.none else some p.2) =
        cl.map (fun c =>
          if c.length > 7 then Option.none else if c = "" then Option.none else some c) := by
    intro cl
    induction cl with
    | nil => rfl
    | cons c cl ih =>
      simp only [List.map_cons, List.zip_cons_cons]
      rw [ih]
      by_cases h7 : c.length > 7 <;> simp [h7]
  refine ⟨?_, ?_, by decide⟩
  · intro series
    simp only [clean_ad_lid_price, if_pos rfl, List.map_map]
    induction series with
    | nil => rfl
    | cons v l ih => simpa using ih
  · intro series
    simp only [clean_ad_lid_price, parse_dates_explicit, if_neg Bool.false_ne_true]
    rw [hzip, List.map_map, List.map_map]
    apply List.map_congr_left
    intro v _
    simp only [Function.comp_apply, cleanPriceChars_stripCell v, claimedCleanCell]
    by_cases h7 : (cleanPriceChars (cellToStr v)).length > 7
    · simp [h7]
    · by_cases he : cleanPriceChars (cellToStr v) = "" <;> simp [h7, he]

/-! ## Tables: provenance, all-empty-column dropping, consolidation
(`summarize_books`, summarizer.py lines 311-347) -/

/-- Write cell `v` under column `c` of row `r` (pandas column assignment). -/
def updateCell (r : Row) (c : String) (v : CellV) : Row :=
  fun c' => if c' = c then v else r c'

/-- `df.insert(i, c, v)` with a scalar value `v`: the column name enters the
column list at position `i` and every row gets the value. -/
def insertColAt (t : Table) (i : ℕ) (c : String) (v : String) : Table :=
  { cols := t.cols.take i ++ c :: t.cols.drop i,
    rows := t.rows.map (fun r => updateCell r c (some v)) }

/-- `df.dropna(axis=1, how="all")`: drop the columns whose cells are missing
in every row. -/
def dropAllNaCols (t : Table) : Table :=
  { cols := t.cols.filter (fun c => t.rows.any (fun r => (r c).isSome)),
    rows := t.rows }

/-- The per-file preparation of `summarize_books`: ensure the
`SourceFile`/`SheetName`/`Folder` provenance columns exist (inserting at the
fixed positions 0, 1, 0), then drop all-missing columns. -/
def prepFrame (addFolderCol : Bool) (folderName fileName : String) (df : Table) : Table :=
  let d1 := if "SourceFile" ∈ df.cols then df else insertColAt df 0 "SourceFile" fileName
  let d2 := if "SheetName" ∈ d1.cols then d1 else insertColAt d1 1 "SheetName" "(unknown)"
  let d3 := if addFolderCol ∧ "Folder" ∉ d2.cols then insertColAt d2 0 "Folder" folderName
            else d2
  dropAllNaCols d3

/-- Column union in order of first appearance, as `pd.concat` builds the
column set of heterogeneous frames. -/
def unionCols (frames : List Table) : List String :=
  frames.foldl (fun acc f => acc ++ f.cols.filter (fun c => c ∉ acc)) []

/-- `pd.concat(frames, ignore_index=True)`: rows appended in frame order,
columns the union in order of first appearance (absent cells stay missing
because rows are total functions defaulting to `none` off their own table). -/
def concatTables (frames : List Table) : Table :=
  { cols := unionCols frames, rows := (frames.map Table.rows).join }

/-- The combine step of `summarize_books`: `intersection` restricts every
frame to the common columns (in the first frame's order) before concatenating;
any other mode concatenates directly (union). -/
def combineFrames (how : String) (frames : List Table) : Table :=
  if how = "intersection" then
    let first := frames.headD ⟨[], []⟩
    let cols := first.cols.filter (fun c => frames.all (fun f => c ∈ f.cols))
    concatTables (frames.map (fun f => { cols := cols, rows := f.rows }))
  else
    concatTables frames

/-- Build a row from literal column/value pairs; anything else is missing. -/
def mkRow (kvs : List (String × String)) : Row :=
  fun c => List.lookup c kvs

theorem unionCols_const (cols : List String) (frames : List Table)
    (hall : ∀ f ∈ frames, f.cols = cols) (hne : frames ≠ []) :
    unionCols frames = cols := by
  obtain ⟨f₀, rest, rfl⟩ := List.exists_cons_of_ne_nil hne
  have h₀ : f₀.cols = cols := hall f₀ (by simp)
  have hstep : ∀ l : List Table, (∀ f ∈ l, f.cols = cols) →
      l.foldl (fun acc f => acc ++ f.cols.filter (fun c => c ∉ acc)) cols = cols := by
    intro l
    induction l with
    | nil => intro _; rfl
    | cons g l ih =>
      intro hg
      have hgc : g.cols = cols := hg g (by simp)
      have hfil : cols ++ g.cols.filter (fun c => decide (c ∉ cols)) = cols := by
        rw [hgc, List.filter_eq_nil_iff.2, List.append_nil]
        intro c hc
        simp [hc]
      simp only [List.foldl_cons]
      rw [hfil]
      exact ih (fun f hf => hg f (List.mem_cons_of_mem _ hf))
  have hhead : unionCols (f₀ :: rest) =
      rest.foldl (fun acc f => acc ++ f.cols.filter (fun c => c ∉ acc)) f₀.cols := by
    simp [unionCols]
  rw [hhead, h₀]
  exact hstep rest (fun f hf => hall f (List.mem_cons_of_mem _ hf))

/-- C4: consolidating a non-empty folder's prepared per-file tables in
`intersection` mode yields exactly the columns common to all prepared tables,
in the first table's original order (a sublist of it), with the rows being the
concatenation of the tables' rows in file-iteration order. -/
theorem C4_intersection_consolidation
    (files : List (String × Table)) (folderName : String) (addFolderCol : Bool)
    (hne : files ≠ []) :
    let frames := files.map (fun p => prepFrame addFolderCol folderName p.1 p.2)
    let out := combineFrames "intersection" frames
    (∀ c, c ∈ out.cols ↔ ∀ fr ∈ frames, c ∈ fr.cols) ∧
    List.Sublist out.cols (frames.headD ⟨[], []⟩).cols ∧
    out.rows = (frames.map Table.rows).join := by
  intro frames out
  have hfne : frames ≠ [] := by
    intro h
    exact hne (List.map_eq_nil.1 h)
  obtain ⟨f₀, rest, hfr⟩ := List.exists_cons_of_ne_nil hfne
  have hheadD : frames.headD ⟨[], []⟩ = f₀ := by rw [hfr]; rfl
  have hcols : out.cols = f₀.cols.filter (fun c => frames.all (fun f => c ∈ f.cols)) := by
    show (combineFrames "intersection" frames).cols = _
    rw [combineFrames, if_pos rfl, concatTables]
    show unionCols _ = _
    rw [hheadD]
    apply unionCols_const
    · intro f hf
      obtain ⟨g, _, rfl⟩ := List.mem_map.1 hf
      rfl
    · simp [hfr]
  refine ⟨?_, ?_, ?_⟩
  · intro c
    rw [hcols, List.mem_filter]
    constructor
    · rintro ⟨-, hall⟩ fr hfrm
      simpa using List.all_eq_true.1 hall fr hfrm
    · intro hall
      have hf₀ : c ∈ f₀.cols := hall f₀ (by rw [hfr]; exact List.mem_cons_self _ _)
      refine ⟨hf₀, List.all_eq_true.2 ?_⟩
      intro fr hfrm
      simpa using hall fr hfrm
  · rw [hcols, hheadD]
    exact List.filter_sublist _
  · show (combineFrames "intersection" frames).rows = _
    rw [combineFrames, if_pos rfl, concatTables]
    show (List.map Table.rows (frames.map _)).join = _
    rw [List.map_map]
    rfl

/-- A first concrete per-file table (price column plus a shared column). -/
def tblW1 : Table :=
  { cols := ["Ad Lid Price", "A"], rows := [mkRow [("Ad Lid Price", "5"), ("A", "x")]] }

/-- A second concrete per-file table (shares only column `A`). -/
def tblW2 : Table :=
  { cols := ["A", "B"], rows := [mkRow [("A", "y"), ("B", "z")]] }

/-- Witness for C4 on two concrete one-row tables. -/
theorem C4_intersection_consolidation_witness :
    let frames := [("f1.xlsx", tblW1), ("f2.xlsx", tblW2)].map
      (fun p => prepFrame true "Week 46 Final Week 47 Initial" p.1 p.2)
    let out := combineFrames "intersection" frames
    (∀ c, c ∈ out.cols ↔ ∀ fr ∈ frames, c ∈ fr.cols) ∧
    List.Sublist out.cols (frames.headD ⟨[], []⟩).cols ∧
    out.rows = (frames.map Table.rows).join :=
  C4_intersection_consolidation [("f1.xlsx", tblW1), ("f2.xlsx", tblW2)]
    "Week 46 Final Week 47 Initial" true (by simp)

/-! ## File Table Extractor (`_excel_all_sheets_concat`, summarizer.py 137-173) -/

/-- The one-row marker table produced for a workbook with no informative
sheet. -/
def placeholderTable (fileName : String) : Table :=
  { cols := ["SourceFile", "SheetName"],
    rows := [mkRow [("SourceFile", fileName), ("SheetName", "(empty workbook)")]] }

/-- One iteration of the sheet loop of `_excel_all_sheets_concat`: `none` when
the sheet is skipped, otherwise the provenance-tagged frame.  The first test
models `df is None or (df.empty and df.shape[1] == 0)` (equivalent to "no
columns"), the second `base.shape[1] == 0 or not base.notna().any().any()`
after the all-missing columns are dropped. -/
def sheetFrame (fileName sheetName : String) (df : Table) : Option Table :=
  if df.cols.isEmpty then Option.none
  else
    let base := dropAllNaCols df
    if base.cols.isEmpty ∨ ¬ base.rows.any (fun r => base.cols.any (fun c => (r c).isSome))
    then Option.none
    else some (insertColAt (insertColAt base 0 "SheetName" sheetName) 0 "SourceFile" fileName)

/-- `_excel_all_sheets_concat`: concatenate the surviving provenance-tagged
sheet frames of one workbook, or the placeholder row if none survives. -/
def excel_all_sheets_concat (fileName : String) (sheets : List (String × Table)) : Table :=
  let frames := sheets.filterMap (fun p => sheetFrame fileName p.1 p.2)
  if frames.isEmpty then placeholderTable fileName else concatTables frames

/-- The extractor as the claim words it: per sheet, drop the entirely-empty
columns, skip the sheet when no informative column remains, prepend
`source_file` then `sheet_name`, concatenate the survivors, and fall back to
the one-row empty-workbook placeholder. -/
def excelConcatClaim (fileName : String) (sheets : List (String × Table)) : Table :=
  let surviving := sheets.filterMap (fun p =>
    let base := dropAllNaCols p.2
    if base.cols.isEmpty then Option.none
    else some (insertColAt (insertColAt base 0 "SheetName" p.1) 0 "SourceFile" fileName))
  if surviving.isEmpty then placeholderTable fileName else concatTables surviving

theorem dropAllNaCols_informative (df : Table)
    (h : ¬ (dropAllNaCols df).cols.isEmpty) :
    (dropAllNaCols df).rows.any
      (fun r => (dropAllNaCols df).cols.any (fun c => (r c).isSome)) := by
  have hne : (dropAllNaCols df).cols ≠ [] := by
    intro hnil
    exact h (by simp [hnil])
  obtain ⟨c, hc⟩ := List.exists_mem_of_ne_nil _ hne
  have hmem := List.mem_filter.1 hc
  have hany : df.rows.any (fun r => (r c).isSome) = true := by simpa using hmem.2
  obtain ⟨r, hr, hrs⟩ := List.any_eq_true.1 hany
  apply List.any_eq_true.2
  exact ⟨r, hr, List.any_eq_true.2 ⟨c, hc, hrs⟩⟩

theorem sheetFrame_eq_claim (fileName sheetName : String) (df : Table) :
    sheetFrame fileName sheetName df =
      (let base := dropAllNaCols df
       if base.cols.isEmpty then Option.none
       else some (insertColAt (insertColAt base 0 "SheetName" sheetName) 0
         "SourceFile" fileName)) := by
  by_cases h0 : df.cols.isEmpty
  · have hbase : (dropAllNaCols df).cols = [] := by
      have : df.cols = [] := by simpa using h0
      simp [dropAllNaCols, this]
    simp [sheetFrame, h0, hbase]
  · by_cases hb : (dropAllNaCols df).cols.isEmpty
    · simp [sheetFrame, h0, hb]
    · have hinf := dropAllNaCols_informative df (by simpa using hb)
      simp [sheetFrame, h0, hb, hinf]

/-- The fully-empty-sheet/data-sheet example workbook: sheet `"Empty"` has one
column that is missing in its single row, sheet `"Data"` has two real rows. -/
def wbExample : List (String × Table) :=
  [("Empty", { cols := ["A"], rows := [fun _ => Option.none] }),
   ("Data", { cols := ["A"], rows := [mkRow [("A", "1")], mkRow [("A", "2")]] })]

/-- C7: each sheet is dropped of its all-empty columns and skipped when
nothing informative remains; survivors get `SourceFile` first and `SheetName`
second and are concatenated; an all-empty workbook yields the one-row
`"(empty workbook)"` placeholder.  The mixed empty/data workbook keeps exactly
the data sheet's rows tagged with its sheet name. -/
theorem C7_excel_extractor :
    (∀ fileName sheets,
      excel_all_sheets_concat fileName sheets = excelConcatClaim fileName sheets) ∧
    (excel_all_sheets_concat "book.xlsx" wbExample).cols =
      ["SourceFile", "SheetName", "A"] ∧
    (excel_all_sheets_concat "book.xlsx" wbExample).rows.map
        (fun r => (r "SourceFile", r "SheetName", r "A")) =
      [(some "book.xlsx", some "Data", some "1"),
       (some "book.xlsx", some "Data", some "2")] ∧
    excel_all_sheets_concat "book.xlsx"
        [("Empty", { cols := ["A"], rows := [fun _ => Option.none] })] =
      placeholderTable "book.xlsx" := by
  refine ⟨?_, by decide, ?_, ?_⟩
  · intro fileName sheets
    rw [excel_all_sheets_concat, excelConcatClaim]
    have : (fun p : String × Table => sheetFrame fileName p.1 p.2) =
        (fun p : String × Table =>
          let base := dropAllNaCols p.2
          if base.cols.isEmpty then Option.none
          else some (insertColAt (insertColAt base 0 "SheetName" p.1) 0
            "SourceFile" fileName)) := by
      funext p
      exact sheetFrame_eq_claim fileName p.1 p.2
    rw [this]
  · decide
  · rfl

/-! ## Folder summarization (`WeekFolderResolver.files_under_folder_name`,
`FolderSummarizer.summarize_folder_by_name`, summarizer.py 66-133) -/

/-- A row of the flattened inventory DataFrame (columns Type, Name, Path,
File Type, DriveItemId; `rid` stands for the remaining display-only columns
and keeps otherwise-identical rows distinguishable). -/
structure InvRow where
  type : String
  name : String
  path : String
  fileType : String
  driveItemId : String
  rid : ℕ
deriving DecidableEq, Repr

/-- `str.startswith`, computed on the character lists (structurally, so that
concrete instances evaluate inside the kernel). -/
def strStartsWith (s pre : String) : Bool :=
  pre.data.isPrefixOf s.data

/-- `files_under_folder_name`: all FILE rows whose Path equals the folder name
or starts with `folder_name + "/"`. -/
def files_under_folder_name (inv : List InvRow) (folderName : String) : List InvRow :=
  (inv.filter (fun r => r.type = "FILE")).filter
    (fun r => decide (r.path = folderName) || strStartsWith r.path (folderName ++ "/"))

/-- The extensions `summarize_folder_by_name` handles. -/
def isExcelExt (ext : String) : Bool :=
  ext = "xlsx" || ext = "xlsm" || ext = "xls"

/-- Python-dict assignment `outputs[name] = df`: replace the value in place if
the key exists, otherwise append the new binding. -/
def assocSet (m : List (String × Table)) (k : String) (v : Table) : List (String × Table) :=
  match m with
  | [] => [(k, v)]
  | e :: t => if e.1 = k then (e.1, v) :: t else e :: assocSet t k v

/-- Python-dict lookup. -/
def lookupA : List (String × Table) → String → Option Table
  | [], _ => Option.none
  | e :: t, k => if e.1 = k then some e.2 else lookupA t k

/-- What the per-file body of `summarize_folder_by_name` produces for one
inventory row: `none` when the row is skipped (non-Excel extension, download
raised, or parse raised), otherwise the parsed table. -/
def rowSuccessTable {γ : Type} (download : String → Except String γ)
    (parser : γ → String → Except String Table) (r : InvRow) : Option Table :=
  if isExcelExt r.fileType.toLower then
    match download r.driveItemId with
    | Except.error _ => Option.none
    | Except.ok content =>
      match parser content r.name with
      | Except.error _ => Option.none
      | Except.ok df => some df
  else Option.none

/-- The file loop of `summarize_folder_by_name`, threading the `outputs`
dict. -/
def summarizeGo {γ : Type} (download : String → Except String γ)
    (parser : γ → String → Except String Table) :
    List InvRow → List (String × Table) → List (String × Table)
  | [], acc => acc
  | r :: rs, acc =>
    if isExcelExt r.fileType.toLower then
      match download r.driveItemId with
      | Except.error _ => summarizeGo download parser rs acc
      | Except.ok content =>
        match parser content r.name with
        | Except.error _ => summarizeGo download parser rs acc
        | Except.ok df => summarizeGo download parser rs (assocSet acc r.name df)
    else summarizeGo download parser rs acc

/-- `summarize_folder_by_name`: `{file_name: DataFrame}` for one folder, file
failures skipped. -/
def summarize_folder_by_name {γ : Type} (download : String → Except String γ)
    (parser : γ → String → Except String Table)
    (inv : List InvRow) (folderName : String) : List (String × Table) :=
  summarizeGo download parser (files_under_folder_name inv folderName) []

/-- The successful `(name, table)` entries of a row list in iteration order. -/
def successEntries {γ : Type} (download : String → Except String γ)
    (parser : γ → String → Except String Table) (rows : List InvRow) :
    List (String × Table) :=
  rows.filterMap (fun r => (rowSuccessTable download parser r).map (fun t => (r.name, t)))

theorem summarizeGo_cons {γ : Type} (download : String → Except String γ)
    (parser : γ → String → Except String Table) (r : InvRow) (rs : List InvRow)
    (acc : List (String × Table)) :
    summarizeGo download parser (r :: rs) acc =
      match rowSuccessTable download parser r with
      | Option.none => summarizeGo download parser rs acc
      | some t => summarizeGo download parser rs (assocSet acc r.name t) := by
  rw [summarizeGo, rowSuccessTable]
  by_cases hx : isExcelExt r.fileType.toLower = true
  · rw [if_pos hx, if_pos hx]
    cases download r.driveItemId with
    | error e => rfl
    | ok content =>
      show (match parser content r.name with
        | Except.error _ => summarizeGo download parser rs acc
        | Except.ok df => summarizeGo download parser rs (assocSet acc r.name df)) =
        match (match parser content r.name with
          | Except.error _ => (Option.none : Option Table)
          | Except.ok df => some df) with
        | Option.none => summarizeGo download parser rs acc
        | some t => summarizeGo download parser rs (assocSet acc r.name t)
      cases parser content r.name with
      | error e => rfl
      | ok df => rfl
  · rw [if_neg hx, if_neg hx]

theorem assocSet_of_not_mem (acc : List (String × Table)) (k : String) (v : Table)
    (h : ∀ e ∈ acc, e.1 ≠ k) : assocSet acc k v = acc ++ [(k, v)] := by
  induction acc with
  | nil => rfl
  | cons e t ih =>
    rw [assocSet, if_neg (h e (by simp)), List.cons_append]
    rw [ih (fun e' he' => h e' (by simp [he']))]

theorem summarizeGo_eq_append {γ : Type} (download : String → Except String γ)
    (parser : γ → String → Except String Table) :
    ∀ (rows : List InvRow) (acc : List (String × Table)),
      (rows.map InvRow.name).Nodup →
      (∀ e ∈ acc, e.1 ∉ rows.map InvRow.name) →
      summarizeGo download parser rows acc = acc ++ successEntries download parser rows := by
  intro rows
  induction rows with
  | nil => intro acc _ _; simp [summarizeGo, successEntries]
  | cons r rs ih =>
    intro acc hnd hdis
    rw [summarizeGo_cons]
    have hnd' : (rs.map InvRow.name).Nodup := by
      simpa using hnd.of_cons
    cases hrt : rowSuccessTable download parser r with
    | none =>
      show summarizeGo download parser rs acc = _
      rw [ih acc hnd' (fun e he => by
        have := hdis e he
        simp only [List.map_cons, List.mem_cons, not_or] at this
        exact this.2)]
      simp [successEntries, List.filterMap_cons, hrt]
    | some t =>
      have hknot : ∀ e ∈ acc, e.1 ≠ r.name := by
        intro e he
        have := hdis e he
        simp only [List.map_cons, List.mem_cons, not_or] at this
        exact this.1
      show summarizeGo download parser rs (assocSet acc r.name t) = _
      rw [assocSet_of_not_mem acc r.name t hknot]
      have hrn : r.name ∉ rs.map InvRow.name := by
        have h := List.nodup_cons.1 (show (r.name :: rs.map InvRow.name).Nodup by
          simpa using hnd)
        exact h.1
      rw [ih (acc ++ [(r.name, t)]) hnd' ?_]
      · simp [successEntries, List.filterMap_cons, hrt]
      · intro e he
        rcases List.mem_append.1 he with h | h
        · have := hdis e h
          simp only [List.map_cons, List.mem_cons, not_or] at this
          exact this.2
        · have : e = (r.name, t) := by simpa using h
          rw [this]
          exact hrn

/-- C8: when the folder's file names are distinct, `summarize_folder_by_name`
returns exactly the `(name, table)` entries of the files whose download and
parse both succeed, in iteration order: a file whose download or parse raises
is omitted, every other file is still processed, and no per-file error
propagates out of the folder summarization. -/
theorem C8_per_file_error_isolation {γ : Type} (download : String → Except String γ)
    (parser : γ → String → Except String Table) (inv : List InvRow) (folderName : String)
    (hnd : ((files_under_folder_name inv folderName).map InvRow.name).Nodup) :
    summarize_folder_by_name download parser inv folderName =
      successEntries download parser (files_under_folder_name inv folderName) := by
  rw [summarize_folder_by_name,
    summarizeGo_eq_append download parser _ [] hnd (by simp)]
  rfl

/-- A concrete inventory with one resolved week folder: three Excel files (one
in a subfolder), and one non-Excel file. -/
def invW : List InvRow :=
  [⟨"FOLDER", "Week 46 Final Week 47 Initial", "", "", "idF", 0⟩,
   ⟨"FILE", "f1.xlsx", "Week 46 Final Week 47 Initial", "xlsx", "id1", 1⟩,
   ⟨"FILE", "f2.xlsx", "Week 46 Final Week 47 Initial/Sub", "xlsx", "id2", 2⟩,
   ⟨"FILE", "notes.txt", "Week 46 Final Week 47 Initial", "txt", "id3", 3⟩,
   ⟨"FILE", "f3.xlsx", "Week 46 Final Week 47 Initial", "xlsx", "id4", 4⟩]

/-- A download collaborator that fails exactly for item `id2`. -/
def dlW : String → Except String String :=
  fun itemId => if itemId = "id2" then Except.error "download failed" else Except.ok itemId

/-- A parser collaborator that fails exactly for file `f3.xlsx`. -/
def parseW : String → String → Except String Table :=
  fun content fileName =>
    if fileName = "f3.xlsx" then Except.error "parse failed"
    else Except.ok { cols := ["A"], rows := [mkRow [("A", content)]] }

/-- Witness for C8: one download failure and one parse failure are both
omitted while the remaining Excel file is returned. -/
theorem C8_per_file_error_isolation_witness :
    summarize_folder_by_name dlW parseW invW "Week 46 Final Week 47 Initial" =
      successEntries dlW parseW
        (files_under_folder_name invW "Week 46 Final Week 47 Initial") :=
  C8_per_file_error_isolation dlW parseW invW "Week 46 Final Week 47 Initial" (by decide)

theorem lookupA_assocSet (m : List (String × Table)) (k : String) (v : Table) (n : String) :
    lookupA (assocSet m k v) n = if n = k then some v else lookupA m n := by
  induction m with
  | nil =>
    by_cases h : n = k
    · subst h; simp [assocSet, lookupA]
    · have h' : ¬ k = n := fun hk => h hk.symm
      simp [assocSet, lookupA, h, h']
  | cons e t ih =>
    by_cases hek : e.1 = k
    · rw [assocSet, if_pos hek]
      by_cases hn : n = k
      · subst hn
        rw [lookupA, if_pos hek, if_pos rfl]
      · have hen : ¬ e.1 = n := fun he => hn (he.symm.trans hek)
        rw [lookupA, if_neg hen, if_neg hn, lookupA, if_neg hen]
    · rw [assocSet, if_neg hek]
      by_cases hen : e.1 = n
      · have hn : ¬ n = k := fun hk => hek (hen.trans hk)
        rw [lookupA, if_pos hen, if_neg hn, lookupA, if_pos hen]
      · rw [lookupA, if_neg hen, ih, lookupA]
        by_cases hn : n = k
        · rw [if_pos hn, if_pos hn]
        · rw [if_neg hn, if_neg hn, if_neg hen]

theorem summarizeGo_lookup {γ : Type} (download : String → Except String γ)
    (parser : γ → String → Except String Table) :
    ∀ (rows : List InvRow) (acc : List (String × Table)) (n : String),
      lookupA (summarizeGo download parser rows acc) n =
        match ((successEntries download parser rows).filter
            (fun e => e.1 = n)).getLast? with
        | some e => some e.2
        | Option.none => lookupA acc n := by
  intro rows
  induction rows with
  | nil => intro acc n; simp [summarizeGo, successEntries]
  | cons r rs ih =>
    intro acc n
    rw [summarizeGo_cons]
    cases hrt : rowSuccessTable download parser r with
    | none =>
      show lookupA (summarizeGo download parser rs acc) n = _
      rw [ih acc n]
      simp [successEntries, List.filterMap_cons, hrt]
    | some t =>
      show lookupA (summarizeGo download parser rs (assocSet acc r.name t)) n = _
      rw [ih (assocSet acc r.name t) n]
      have hse : successEntries download parser (r :: rs) =
          (r.name, t) :: successEntries download parser rs := by
        simp [successEntries, List.filterMap_cons, hrt]
      rw [hse]
      by_cases hn : r.name = n
      · rw [List.filter_cons_of_pos (by simpa using hn)]
        cases hf : (successEntries download parser rs).filter (fun e => e.1 = n) with
        | nil =>
          show lookupA (assocSet acc r.name t) n = some t
          rw [lookupA_assocSet, if_pos hn.symm]
        | cons y ys =>
          rw [List.getLast?_cons_cons]
          cases hg : (y :: ys).getLast? with
          | none => exact absurd hg (by simp)
          | some e => rfl
      · rw [List.filter_cons_of_neg (by simpa using hn)]
        cases hf : (successEntries download parser rs).filter (fun e => e.1 = n) with
        | nil =>
          show lookupA (assocSet acc r.name t) n = lookupA acc n
          rw [lookupA_assocSet, if_neg (fun h => hn h.symm)]
        | cons y ys =>
          cases hg : (y :: ys).getLast? with
          | none => exact absurd hg (by simp)
          | some e => rfl

theorem keys_nodup_assocSet (m : List (String × Table)) (k : String) (v : Table)
    (h : (m.map Prod.fst).Nodup) : ((assocSet m k v).map Prod.fst).Nodup := by
  induction m with
  | nil => simp [assocSet]
  | cons e t ih =>
    rw [List.map_cons, List.nodup_cons] at h
    by_cases hek : e.1 = k
    · rw [assocSet, if_pos hek, List.map_cons, List.nodup_cons]
      exact h
    · rw [assocSet, if_neg hek, List.map_cons, List.nodup_cons]
      refine ⟨?_, ih h.2⟩
      have hkeys : ∀ t : List (String × Table),
          (assocSet t k v).map Prod.fst = t.map Prod.fst ∨
          (assocSet t k v).map Prod.fst = t.map Prod.fst ++ [k] := by
        intro t
        induction t with
        | nil => right; rfl
        | cons e' t' ih' =>
          by_cases he' : e'.1 = k
          · left; rw [assocSet, if_pos he', List.map_cons, List.map_cons, he']
          · rcases ih' with h' | h'
            · left; rw [assocSet, if_neg he', List.map_cons, h', List.map_cons]
            · right; rw [assocSet, if_neg he', List.map_cons, h', List.map_cons,
                List.cons_append]
      rcases hkeys t with h' | h'
      · rw [h']; exact h.1
      · rw [h']
        intro hmem
        rcases List.mem_append.1 hmem with hm | hm
        · exact h.1 hm
        · have : e.1 = k := by simpa using hm
          exact hek this

theorem keys_nodup_summarizeGo {γ : Type} (download : String → Except String γ)
    (parser : γ → String → Except String Table) :
    ∀ (rows : List InvRow) (acc : List (String × Table)),
      (acc.map Prod.fst).Nodup →
      ((summarizeGo download parser rows acc).map Prod.fst).Nodup := by
  intro rows
  induction rows with
  | nil => intro acc h; exact h
  | cons r rs ih =>
    intro acc h
    rw [summarizeGo_cons]
    cases rowSuccessTable download parser r with
    | none => exact ih acc h
    | some t => exact ih (assocSet acc r.name t) (keys_nodup_assocSet acc r.name t h)

/-- C10: `summarize_folder_by_name` keys its result by bare file name: looking
up a name returns the table of the last successfully processed FILE row with
that name anywhere under the folder (earlier same-named files are lost), and
the result never carries more than one entry per name. -/
theorem C10_name_collision_last_wins {γ : Type} (download : String → Except String γ)
    (parser : γ → String → Except String Table) (inv : List InvRow)
    (folderName n : String) :
    (lookupA (summarize_folder_by_name download parser inv folderName) n =
      (((successEntries download parser (files_under_folder_name inv folderName)).filter
          (fun e => e.1 = n)).getLast?).map (fun e => e.2)) ∧
    (summarize_folder_by_name download parser inv folderName).countP
      (fun e => e.1 = n) ≤ 1 := by
  constructor
  · rw [summarize_folder_by_name, summarizeGo_lookup]
    cases ((successEntries download parser (files_under_folder_name inv folderName)).filter
        (fun e => e.1 = n)).getLast? with
    | none => rfl
    | some e => rfl
  · have hnd := keys_nodup_summarizeGo download parser
      (files_under_folder_name inv folderName) [] (by simp)
    have hcount := List.nodup_iff_count_le_one.1 hnd n
    rw [List.count, List.countP_map] at hcount
    exact hcount

/-! ## Multi-Phase Ranker (`summarize_books` phased sort, summarizer.py
361-431) and the consolidated-book pipeline -/

/-- Map an optional sort key into the `na_position="last"` order: missing is
`⊤`, larger than every real value. -/
def naLast {β : Type} : Option β → WithTop β
  | Option.none => ⊤
  | some x => (x : WithTop β)

/-- `groupby(item)[...].transform("min")` of the row dates: the minimum of the
non-missing dates of the rows of one item group (`⊤` when the group has no
real date, as pandas keeps `NaT`). -/
def groupMinDate {α β : Type} [DecidableEq β] (item : α → β) (rowDate : α → WithTop ℤ)
    (l : List α) (b : β) : WithTop ℤ :=
  ((l.filter (fun s => item s = b)).map rowDate).foldl min ⊤

/-- The phased stable sort applied to the `AdLidPriceOnly` frame:
phase 1 sorts by numeric Item ascending (missing last); phase 2 re-sorts by
per-Item row count descending; phase 2.5 (only when the `Loading Start Date`
column exists) re-sorts by the per-Item earliest date ascending (missing
last); phase 3 freezes the Item grouping order through a first-occurrence rank
map and sorts by (group rank, row-level date, price-missing flag, numeric
price).  Every phase is a stable keyed sort (`kind="mergesort"`). -/
def phasedSort {α β : Type} [DecidableEq β] (item : α → β) (itemNum : α → WithTop ℚ)
    (rowDate : α → WithTop ℤ) (hasDateCol : Bool) (price : α → WithTop ℚ)
    (l : List α) : List α :=
  let p1 := List.insertionSort (keyLe itemNum) l
  let p2 := List.insertionSort
    (keyLe (fun r => OrderDual.toDual (p1.countP (fun s => item s = item r)))) p1
  let p25 := if hasDateCol then
      List.insertionSort (keyLe (fun r => groupMinDate item rowDate p2 (item r))) p2
    else p2
  List.insertionSort
    (keyLe (fun r => toLex ((dropDuplicates (p25.map item)).indexOf (item r),
      toLex ((if hasDateCol then rowDate r else ⊤),
        toLex ((decide (price r = ⊤) : Bool), price r))))) p25

theorem phasedSort_perm {α β : Type} [DecidableEq β] (item : α → β)
    (itemNum : α → WithTop ℚ) (rowDate : α → WithTop ℤ) (hasDateCol : Bool)
    (price : α → WithTop ℚ) (l : List α) :
    (phasedSort item itemNum rowDate hasDateCol price l).Perm l := by
  rw [phasedSort]
  refine (List.perm_insertionSort _ _).trans ?_
  by_cases hd : hasDateCol = true
  · rw [if_pos hd]
    exact (List.perm_insertionSort _ _).trans
      ((List.perm_insertionSort _ _).trans (List.perm_insertionSort _ _))
  · rw [if_neg hd]
    exact (List.perm_insertionSort _ _).trans (List.perm_insertionSort _ _)

/-- The collaborator functions of the pandas library that the pipeline calls
(`pd.to_numeric(errors="coerce")` on a string, `pd.to_datetime` on a cell,
`is_datetime64_any_dtype` on a column). -/
structure PandasOps where
  toNumericStr : String → Option ℚ
  toDatetimeCell : CellV → Option ℤ
  dtypeIsDatetime : List CellV → Bool

/-- The Item-cleaning of phase 1: keep digits, periods and minus signs. -/
def cleanItemChars (s : String) : String :=
  String.mk (s.data.filter (fun c => c.isDigit || c == '.' || c == '-'))

/-- `.astype(str)` on a cell: pandas renders a missing value as `"nan"`. -/
def itemAsStr : CellV → String
  | Option.none => "nan"
  | some s => s

/-- The numeric Item key of phase 1:
`pd.to_numeric(ad_only["Item"].astype(str).str.strip().str.replace(r"[^0-9.\-]", "", regex=True), errors="coerce")`. -/
def itemNumCell (ops : PandasOps) (c : CellV) : WithTop ℚ :=
  naLast (ops.toNumericStr (cleanItemChars (pyStrip (itemAsStr c))))

/-- The phased sort applied to a table, with the keys the code derives from
the `Item`, `Loading Start Date` and price columns. -/
def phasedSortTable (ops : PandasOps) (priceCol : String) (t : Table) : Table :=
  { cols := t.cols,
    rows := phasedSort (fun r => r "Item") (fun r => itemNumCell ops (r "Item"))
      (fun r => naLast (ops.toDatetimeCell (r "Loading Start Date")))
      ("Loading Start Date" ∈ t.cols)
      (fun r => naLast ((r priceCol).bind ops.toNumericStr)) t.rows }

/-- `combined.loc[mask].copy()` with `ad_only[col] = cleaned.loc[mask]`: keep
the rows whose cleaned price is non-missing and substitute the cleaned value
in the price column of the kept rows. -/
def priceFilteredRows (isDt : Bool) (priceCol : String) (rows : List Row) : List Row :=
  ((rows.zip (clean_ad_lid_price isDt (rows.map (fun r => r priceCol)))).filter
    (fun p => p.2.isSome)).map (fun p => updateCell p.1 priceCol p.2)

/-- The fresh `ad_only` frame built when the price column exists. -/
def priceFilterTable (ops : PandasOps) (priceCol : String) (t : Table) : Table :=
  { cols := t.cols,
    rows := priceFilteredRows (ops.dtypeIsDatetime (t.rows.map (fun r => r priceCol)))
      priceCol t.rows }

/-- `combined.head(0).copy()`: same columns, no rows. -/
def emptyHeadTable (t : Table) : Table :=
  { cols := t.cols, rows := [] }

/-- The `AdLidPriceOnly` sheet emitted for one folder, from the current
`combined` frame and the current `ad_only` binding: the phased sort runs when
`ad_only` has an `Item` column, otherwise a zero-row copy of `combined` is
emitted (this is the `else` that is attached to the `Item` check in the
source). -/
def adLidPriceOnlySheet (ops : PandasOps) (priceCol : String)
    (combined adOnly : Table) : Table :=
  if "Item" ∈ adOnly.cols then phasedSortTable ops priceCol adOnly
  else emptyHeadTable combined

/-- The folder loop of `summarize_books`.  The `Option Table` argument is the
Python local variable `ad_only`, which is only assigned inside the
`if ad_lid_price_col in combined.columns` branch but read unconditionally by
the following `if "Item" in ad_only.columns` line: reading it while it was
never assigned raises `NameError`, and reading it after a previous folder
assigned it reuses that stale frame. -/
def summarizeBooksGo (ops : PandasOps) (how : String)
    (addFolderCol addPriceSheet : Bool) (priceCol : String) :
    List (String × List (String × Table)) → Option Table →
    Except String (List (String × List (String × Table)))
  | [], _ => Except.ok []
  | (folderName, filesMap) :: rest, adOnlyState =>
    if filesMap.isEmpty then
      match summarizeBooksGo ops how addFolderCol addPriceSheet priceCol rest adOnlyState with
      | Except.error e => Except.error e
      | Except.ok out => Except.ok ((folderName, []) :: out)
    else
      let frames := filesMap.map (fun p => prepFrame addFolderCol folderName p.1 p.2)
      let combined := combineFrames how frames
      if addPriceSheet then
        let adState' := if priceCol ∈ combined.cols
          then some (priceFilterTable ops priceCol combined) else adOnlyState
        match adState' with
        | Option.none => Except.error "NameError: name 'ad_only' is not defined"
        | some adOnly =>
          match summarizeBooksGo ops how addFolderCol addPriceSheet priceCol rest adState' with
          | Except.error e => Except.error e
          | Except.ok out => Except.ok ((folderName,
              [("Consolidated", combined),
               ("AdLidPriceOnly", adLidPriceOnlySheet ops priceCol combined adOnly)]) :: out)
      else
        match summarizeBooksGo ops how addFolderCol addPriceSheet priceCol rest adOnlyState with
        | Except.error e => Except.error e
        | Except.ok out => Except.ok ((folderName, [("Consolidated", combined)]) :: out)

/-- `summarize_books`: consolidate every folder and optionally derive the
`AdLidPriceOnly` sheet; `ad_only` starts unbound. -/
def summarize_books (ops : PandasOps) (how : String)
    (addFolderCol addPriceSheet : Bool) (priceCol : String)
    (results : List (String × List (String × Table))) :
    Except String (List (String × List (String × Table))) :=
  summarizeBooksGo ops how addFolderCol addPriceSheet priceCol results Option.none

/-- Pandas collaborators that parse nothing (sufficient for the structural
counterexamples: no theorem below depends on their behaviour). -/
def opsNone : PandasOps :=
  { toNumericStr := fun _ => Option.none,
    toDatetimeCell := fun _ => Option.none,
    dtypeIsDatetime := fun _ => false }

/-- A consolidated input table that lacks the `Ad Lid Price` column. -/
def tblNoPrice : Table :=
  { cols := ["X"], rows := [mkRow [("X", "1")]] }

/-- C9 (failing run): a folder whose consolidated table has no
`Ad Lid Price` column makes `summarize_books` read the never-assigned
`ad_only` local and raise `NameError`, instead of degrading to an empty
price-only sheet: the whole run aborts and no folder's results survive. -/
theorem C9_missing_price_column_name_error :
    summarize_books opsNone "union" true true "Ad Lid Price"
      [("Week 46 Final Week 47 Initial", [("a.xlsx", tblNoPrice)])] =
    Except.error "NameError: name 'ad_only' is not defined" := by
  rfl

/-- A consolidated table with a valid price but no `Item` column. -/
def tblPriceNoItem : Table :=
  { cols := ["Ad Lid Price", "X"], rows := [mkRow [("Ad Lid Price", "5"), ("X", "a")]] }

/-- C6 counterexample: a ConsolidatedTable that carries the price column but no
`Item` column has one row with a valid cleaned price, yet the derived
`AdLidPriceOnly` sheet is empty — so the derived table does not contain
exactly the valid-price rows "regardless of which other columns" exist. -/
theorem C6_price_only_rows_counterexample :
    (priceFilteredRows
        (opsNone.dtypeIsDatetime (tblPriceNoItem.rows.map (fun r => r "Ad Lid Price")))
        "Ad Lid Price" tblPriceNoItem.rows).length = 1 ∧
    (adLidPriceOnlySheet opsNone "Ad Lid Price" tblPriceNoItem
        (priceFilterTable opsNone "Ad Lid Price" tblPriceNoItem)).rows.length = 0 := by
  constructor
  · rfl
  · rfl

/-- C6 amended: when the ConsolidatedTable does contain an `Item` column, the
derived `AdLidPriceOnly` sheet keeps the ConsolidatedTable's columns and its
rows are exactly (as a multiset: the ranker only reorders them) the
ConsolidatedTable rows whose price column cleans to a non-missing value, with
the cleaned value substituted; when `Item` is absent, the sheet is the
ConsolidatedTable truncated to zero rows. -/
theorem C6_price_only_rows_amended (ops : PandasOps) (priceCol : String)
    (combined : Table) (hItem : "Item" ∈ combined.cols) :
    (adLidPriceOnlySheet ops priceCol combined
        (priceFilterTable ops priceCol combined)).cols = combined.cols ∧
    (adLidPriceOnlySheet ops priceCol combined
        (priceFilterTable ops priceCol combined)).rows.Perm (priceFilteredRows
      (ops.dtypeIsDatetime (combined.rows.map (fun r => r priceCol)))
      priceCol combined.rows) := by
  rw [adLidPriceOnlySheet, if_pos (show "Item" ∈ (priceFilterTable ops priceCol combined).cols
    from hItem)]
  exact ⟨rfl, phasedSort_perm _ _ _ _ _ _⟩

/-- A consolidated table with `Item`, a date column and prices, one row of
which (`nodate`) carries a date-like price cell that cleans to missing. -/
def tblWithItem : Table :=
  { cols := ["Item", "Loading Start Date", "Ad Lid Price"],
    rows := [mkRow [("Item", "12"), ("Loading Start Date", "2025-10-05"), ("Ad Lid Price", "$ 34.95")],
             mkRow [("Item", "12"), ("Loading Start Date", "2025-10-06"), ("Ad Lid Price", "2025-10-18 00:00:00")],
             mkRow [("Item", "7"), ("Loading Start Date", "2025-10-05"), ("Ad Lid Price", "13.5")]] }

/-- Witness for the amended C6 on a concrete three-row table. -/
theorem C6_price_only_rows_amended_witness :
    (adLidPriceOnlySheet opsNone "Ad Lid Price" tblWithItem
        (priceFilterTable opsNone "Ad Lid Price" tblWithItem)).cols = tblWithItem.cols ∧
    (adLidPriceOnlySheet opsNone "Ad Lid Price" tblWithItem
        (priceFilterTable opsNone "Ad Lid Price" tblWithItem)).rows.Perm (priceFilteredRows
      (opsNone.dtypeIsDatetime (tblWithItem.rows.map (fun r => r "Ad Lid Price")))
      "Ad Lid Price" tblWithItem.rows) :=
  C6_price_only_rows_amended opsNone "Ad Lid Price" tblWithItem (by decide)

/-! ## Two-group behaviour of the Multi-Phase Ranker (C2) -/

theorem split_of_pairwise {α : Type} {le : α → α → Prop} {P Q : α → Prop} :
    ∀ {l : List α}, l.Pairwise le → (∀ x ∈ l, P x ∨ Q x) →
      (∀ x y, Q x → P y → ¬ le x y) →
      ∃ xs ys, l = xs ++ ys ∧ (∀ x ∈ xs, P x) ∧ (∀ y ∈ ys, Q y) := by
  intro l
  induction l with
  | nil => exact fun _ _ _ => ⟨[], [], rfl, by simp, by simp⟩
  | cons c t ih =>
    intro hp hpq hno
    rcases hpq c (by simp) with hPc | hQc
    · obtain ⟨xs, ys, ht, hxs, hys⟩ :=
        ih hp.of_cons (fun x hx => hpq x (by simp [hx])) hno
      refine ⟨c :: xs, ys, by rw [ht, List.cons_append], ?_, hys⟩
      intro x hx
      rcases List.mem_cons.1 hx with rfl | hx'
      · exact hPc
      · exact hxs x hx'
    · refine ⟨[], c :: t, rfl, by simp, ?_⟩
      intro y hy
      rcases List.mem_cons.1 hy with rfl | hyt
      · exact hQc
      · rcases hpq y (by simp [hyt]) with hPy | hQy
        · exact absurd (List.rel_of_pairwise_cons hp hyt) (hno c y hQc hPy)
        · exact hQy

theorem countP_partition_length {α : Type} (pb : α → Prop) [DecidablePred pb]
    {xs ys : List α} (hxs : ∀ x ∈ xs, pb x) (hys : ∀ y ∈ ys, ¬ pb y) :
    (xs ++ ys).countP (fun x => pb x) = xs.length := by
  rw [List.countP_append]
  rw [List.countP_eq_length.2 (fun x hx => by simpa using hxs x hx)]
  rw [List.countP_eq_zero.2 (fun y hy => by simpa using hys y hy), Nat.add_zero]

theorem groupMinDate_perm {α β : Type} [DecidableEq β] (item : α → β)
    (rowDate : α → WithTop ℤ) {l₁ l₂ : List α} (h : l₁.Perm l₂) (x : β) :
    groupMinDate item rowDate l₁ x = groupMinDate item rowDate l₂ x := by
  haveI : RightCommutative (min : WithTop ℤ → WithTop ℤ → WithTop ℤ) :=
    ⟨fun c a b => min_right_comm c a b⟩
  unfold groupMinDate
  exact List.Perm.foldl_eq
    (List.Perm.map rowDate (List.Perm.filter (fun s => decide (item s = x)) h)) ⊤

theorem dropDupAux_of_all_seen {β : Type} [DecidableEq β] :
    ∀ (l seen : List β), (∀ x ∈ l, x ∈ seen) → dropDupAux l seen = [] := by
  intro l
  induction l with
  | nil => intro seen _; rfl
  | cons x t ih =>
    intro seen h
    rw [dropDupAux, if_pos (h x (by simp))]
    exact ih seen (fun y hy => h y (by simp [hy]))

theorem dropDupAux_skip_block {β : Type} [DecidableEq β] (b : β) :
    ∀ (xs ys seen : List β), (∀ x ∈ xs, x = b) → b ∈ seen →
      dropDupAux (xs ++ ys) seen = dropDupAux ys seen := by
  intro xs
  induction xs with
  | nil => intro ys seen _ _; rfl
  | cons x t ih =>
    intro ys seen hall hb
    have hx : x = b := hall x (by simp)
    rw [List.cons_append, dropDupAux, if_pos (hx ▸ hb)]
    exact ih ys seen (fun y hy => hall y (by simp [hy])) hb

theorem dropDuplicates_two_blocks {β : Type} [DecidableEq β] {a b : β} (hab : a ≠ b)
    {xs ys : List β} (hxs : xs ≠ []) (hys : ys ≠ [])
    (hxb : ∀ x ∈ xs, x = b) (hya : ∀ y ∈ ys, y = a) :
    dropDuplicates (xs ++ ys) = [b, a] := by
  obtain ⟨x, xt, rfl⟩ := List.exists_cons_of_ne_nil hxs
  obtain ⟨y, yt, rfl⟩ := List.exists_cons_of_ne_nil hys
  have hx : x = b := hxb x (by simp)
  have hy : y = a := hya y (by simp)
  rw [List.cons_append, dropDuplicates, dropDupAux, if_neg (List.not_mem_nil x)]
  rw [dropDupAux_skip_block b xt (y :: yt) [x]
    (fun z hz => hxb z (by simp [hz])) (by simp [hx])]
  rw [dropDupAux, if_neg (by simp [hy, hx, hab])]
  rw [dropDupAux_of_all_seen yt (y :: [x]) (fun z hz => by
    have hz' : z = a := hya z (by simp [hz])
    simp [hz', hy])]
  rw [hx, hy]

theorem split_two_groups_of_sorted {α β : Type} [DecidableEq β]
    {item : α → β} {a b : β} {κ : Type} [LinearOrder κ] {key : α → κ}
    (l : List α) (hmem : ∀ r ∈ l, item r = b ∨ item r = a)
    (hsorted : l.Pairwise (keyLe key))
    (hkey : ∀ x y, item x = a → item y = b → ¬ key x ≤ key y) :
    ∃ xs ys, l = xs ++ ys ∧ (∀ x ∈ xs, item x = b) ∧ (∀ y ∈ ys, item y = a) :=
  split_of_pairwise hsorted hmem (fun x y hQ hP hle => hkey x y hQ hP hle)

theorem two_block_lengths {α β : Type} [DecidableEq β] {item : α → β} {a b : β}
    (hab : a ≠ b) {l₀ xs ys : List α} (hperm : (xs ++ ys).Perm l₀)
    (hxs : ∀ x ∈ xs, item x = b) (hys : ∀ y ∈ ys, item y = a)
    (hca : l₀.countP (fun r => item r = a) = 3)
    (hcb : l₀.countP (fun r => item r = b) = 5) :
    xs.length = 5 ∧ ys.length = 3 := by
  constructor
  · have h1 : (xs ++ ys).countP (fun r => item r = b) = 5 := by
      rw [hperm.countP_eq, hcb]
    rw [countP_partition_length (fun r => item r = b) hxs
      (fun y hy => by
        show ¬ item y = b
        rw [hys y hy]
        exact hab)] at h1
    exact h1
  · have h1 : (xs ++ ys).countP (fun r => item r = a) = 3 := by
      rw [hperm.countP_eq, hca]
    rw [List.countP_append] at h1
    rw [List.countP_eq_zero.2 (fun x hx => by
      simp only [decide_eq_true_eq]
      rw [hxs x hx]
      exact fun h => hab h.symm)] at h1
    rw [List.countP_eq_length.2 (fun y hy => by simpa using hys y hy)] at h1
    simpa using h1

theorem phase2_split {α β : Type} [DecidableEq β] (item : α → β) (a b : β)
    (hab : a ≠ b) (l p : List α) (hperm : p.Perm l)
    (hmem : ∀ r ∈ l, item r = b ∨ item r = a)
    (hca : l.countP (fun r => item r = a) = 3)
    (hcb : l.countP (fun r => item r = b) = 5) :
    (List.insertionSort
        (keyLe (fun r => OrderDual.toDual (p.countP (fun s => item s = item r)))) p).Perm l ∧
    ∃ xs ys, List.insertionSort
        (keyLe (fun r => OrderDual.toDual (p.countP (fun s => item s = item r)))) p =
        xs ++ ys ∧ (∀ x ∈ xs, item x = b) ∧ (∀ y ∈ ys, item y = a) := by
  have hP : (List.insertionSort
      (keyLe (fun r => OrderDual.toDual (p.countP (fun s => item s = item r)))) p).Perm l :=
    (List.perm_insertionSort _ _).trans hperm
  refine ⟨hP, ?_⟩
  have hsorted := List.sorted_insertionSort
    (keyLe (fun r => OrderDual.toDual (p.countP (fun s => item s = item r)))) p
  refine split_two_groups_of_sorted _ (fun r hr => hmem r (hP.mem_iff.1 hr)) hsorted ?_
  intro x y hxa hyb hle
  have hcx : p.countP (fun s => item s = item x) = 3 := by
    simp only [hxa]
    rw [hperm.countP_eq, hca]
  have hcy : p.countP (fun s => item s = item y) = 5 := by
    simp only [hyb]
    rw [hperm.countP_eq, hcb]
  have : p.countP (fun s => item s = item y) ≤ p.countP (fun s => item s = item x) := hle
  omega

theorem phase25_split {α β : Type} [DecidableEq β] (item : α → β)
    (rowDate : α → WithTop ℤ) (a b : β) (l p : List α) (hperm : p.Perm l)
    (hsplit : ∃ xs ys, p = xs ++ ys ∧ (∀ x ∈ xs, item x = b) ∧ (∀ y ∈ ys, item y = a))
    (hmem : ∀ r ∈ l, item r = b ∨ item r = a)
    (hdate : groupMinDate item rowDate l b ≤ groupMinDate item rowDate l a) :
    (List.insertionSort
        (keyLe (fun r => groupMinDate item rowDate p (item r))) p).Perm l ∧
    ∃ xs ys, List.insertionSort
        (keyLe (fun r => groupMinDate item rowDate p (item r))) p = xs ++ ys ∧
      (∀ x ∈ xs, item x = b) ∧ (∀ y ∈ ys, item y = a) := by
  have hP : (List.insertionSort
      (keyLe (fun r => groupMinDate item rowDate p (item r))) p).Perm l :=
    (List.perm_insertionSort _ _).trans hperm
  refine ⟨hP, ?_⟩
  rcases lt_or_eq_of_le hdate with hlt | heq
  · have hsorted := List.sorted_insertionSort
      (keyLe (fun r => groupMinDate item rowDate p (item r))) p
    refine split_two_groups_of_sorted _ (fun r hr => hmem r (hP.mem_iff.1 hr)) hsorted ?_
    intro x y hxa hyb hle
    have hle' : groupMinDate item rowDate p (item x) ≤
        groupMinDate item rowDate p (item y) := hle
    rw [hxa, hyb, groupMinDate_perm item rowDate hperm a,
      groupMinDate_perm item rowDate hperm b] at hle'
    exact absurd hle' (not_le_of_lt hlt)
  · have hall : ∀ x ∈ p, ∀ y ∈ p,
        keyLe (fun r => groupMinDate item rowDate p (item r)) x y := by
      intro x hx y hy
      have hkey : ∀ z ∈ p, groupMinDate item rowDate p (item z) =
          groupMinDate item rowDate l b := by
        intro z hz
        rcases hmem z (hperm.mem_iff.1 hz) with hzb | hza
        · rw [hzb, groupMinDate_perm item rowDate hperm b]
        · rw [hza, groupMinDate_perm item rowDate hperm a, ← heq]
      show groupMinDate item rowDate p (item x) ≤ groupMinDate item rowDate p (item y)
      rw [hkey x hx, hkey y hy]
    have hpair : p.Pairwise (keyLe (fun r => groupMinDate item rowDate p (item r))) :=
      List.pairwise_of_forall_mem_list hall
    rw [List.Sorted.insertionSort_eq hpair]
    exact hsplit

theorem phase3_final {α β : Type} [DecidableEq β] (item : α → β)
    (rowDate : α → WithTop ℤ) (price : α → WithTop ℚ) (a b : β) (hab : a ≠ b)
    (l p : List α) (hperm : p.Perm l)
    (hsplit : ∃ xs ys, p = xs ++ ys ∧ (∀ x ∈ xs, item x = b) ∧ (∀ y ∈ ys, item y = a))
    (hca : l.countP (fun r => item r = a) = 3)
    (hcb : l.countP (fun r => item r = b) = 5) :
    ∃ bs as', List.insertionSort
        (keyLe (fun r => toLex ((dropDuplicates (p.map item)).indexOf (item r),
          toLex (rowDate r, toLex ((decide (price r = ⊤) : Bool), price r))))) p =
        bs ++ as' ∧
      (∀ r ∈ bs, item r = b) ∧ (∀ r ∈ as', item r = a) ∧
      bs.length = 5 ∧ as'.length = 3 ∧
      (List.insertionSort
        (keyLe (fun r => toLex ((dropDuplicates (p.map item)).indexOf (item r),
          toLex (rowDate r, toLex ((decide (price r = ⊤) : Bool), price r))))) p).Perm l ∧
      bs.Pairwise (keyLe (fun r => toLex (rowDate r,
        toLex ((decide (price r = ⊤) : Bool), price r)))) ∧
      as'.Pairwise (keyLe (fun r => toLex (rowDate r,
        toLex ((decide (price r = ⊤) : Bool), price r)))) := by
  obtain ⟨xs, ys, hpeq, hxs, hys⟩ := hsplit
  have hlens : xs.length = 5 ∧ ys.length = 3 :=
    two_block_lengths hab (hpeq ▸ hperm) hxs hys hca hcb
  have hxne : xs ≠ [] := by
    intro h
    rw [h] at hlens
    exact absurd hlens.1 (by simp)
  have hyne : ys ≠ [] := by
    intro h
    rw [h] at hlens
    exact absurd hlens.2 (by simp)
  have hdd : dropDuplicates (p.map item) = [b, a] := by
    rw [hpeq, List.map_append]
    refine dropDuplicates_two_blocks hab ?_ ?_ ?_ ?_
    · simpa using hxne
    · simpa using hyne
    · intro x hx
      obtain ⟨r, hr, rfl⟩ := List.mem_map.1 hx
      exact hxs r hr
    · intro y hy
      obtain ⟨r, hr, rfl⟩ := List.mem_map.1 hy
      exact hys r hr
  have hib : ([b, a] : List β).indexOf b = 0 := List.indexOf_cons_self b [a]
  have hia : ([b, a] : List β).indexOf a = 1 := by
    rw [List.indexOf_cons_ne [a] (fun h => hab h.symm), List.indexOf_cons_self]
  have hP : (List.insertionSort
      (keyLe (fun r => toLex ((dropDuplicates (p.map item)).indexOf (item r),
        toLex (rowDate r, toLex ((decide (price r = ⊤) : Bool), price r))))) p).Perm l :=
    (List.perm_insertionSort _ _).trans hperm
  have hsorted := List.sorted_insertionSort
    (keyLe (fun r => toLex ((dropDuplicates (p.map item)).indexOf (item r),
      toLex (rowDate r, toLex ((decide (price r = ⊤) : Bool), price r))))) p
  have hmem' : ∀ r ∈ List.insertionSort
      (keyLe (fun r => toLex ((dropDuplicates (p.map item)).indexOf (item r),
        toLex (rowDate r, toLex ((decide (price r = ⊤) : Bool), price r))))) p,
      item r = b ∨ item r = a := by
    intro r hr
    have hrp : r ∈ p := (List.perm_insertionSort _ _).mem_iff.1 hr
    rw [hpeq] at hrp
    rcases List.mem_append.1 hrp with h | h
    · exact Or.inl (hxs r h)
    · exact Or.inr (hys r h)
  have hkey3 : ∀ x y, item x = a → item y = b →
      ¬ keyLe (fun r => toLex ((dropDuplicates (p.map item)).indexOf (item r),
        toLex (rowDate r, toLex ((decide (price r = ⊤) : Bool), price r)))) x y := by
    intro x y hxa hyb hle
    have hle' : toLex ((dropDuplicates (p.map item)).indexOf (item x),
        toLex (rowDate x, toLex ((decide (price x = ⊤) : Bool), price x))) ≤
        toLex ((dropDuplicates (p.map item)).indexOf (item y),
          toLex (rowDate y, toLex ((decide (price y = ⊤) : Bool), price y))) := hle
    rw [hxa, hyb, hdd, hib, hia] at hle'
    rcases (Prod.Lex.le_iff _ _).1 hle' with h1 | ⟨h1, -⟩
    · exact absurd h1 (by omega)
    · exact absurd h1 (by omega)
  obtain ⟨bs, as', heq, hbs, has⟩ :=
    split_two_groups_of_sorted _ hmem' hsorted hkey3
  have hlens3 : bs.length = 5 ∧ as'.length = 3 :=
    two_block_lengths hab (heq ▸ hP) hbs has hca hcb
  have hpw : (bs ++ as').Pairwise
      (keyLe (fun r => toLex ((dropDuplicates (p.map item)).indexOf (item r),
        toLex (rowDate r, toLex ((decide (price r = ⊤) : Bool), price r))))) := by
    rw [← heq]
    exact hsorted
  refine ⟨bs, as', heq, hbs, has, hlens3.1, hlens3.2, hP, ?_, ?_⟩
  · refine (List.pairwise_append.1 hpw).1.imp_of_mem ?_
    intro x y hx hy hle
    have hle' : toLex ((dropDuplicates (p.map item)).indexOf (item x),
        toLex (rowDate x, toLex ((decide (price x = ⊤) : Bool), price x))) ≤
        toLex ((dropDuplicates (p.map item)).indexOf (item y),
          toLex (rowDate y, toLex ((decide (price y = ⊤) : Bool), price y))) := hle
    rw [hbs x hx, hbs y hy] at hle'
    rcases (Prod.Lex.le_iff _ _).1 hle' with h1 | ⟨-, h2⟩
    · exact absurd h1 (lt_irrefl _)
    · exact h2
  · refine (List.pairwise_append.1 hpw).2.1.imp_of_mem ?_
    intro x y hx hy hle
    have hle' : toLex ((dropDuplicates (p.map item)).indexOf (item x),
        toLex (rowDate x, toLex ((decide (price x = ⊤) : Bool), price x))) ≤
        toLex ((dropDuplicates (p.map item)).indexOf (item y),
          toLex (rowDate y, toLex ((decide (price y = ⊤) : Bool), price y))) := hle
    rw [has x hx, has y hy] at hle'
    rcases (Prod.Lex.le_iff _ _).1 hle' with h1 | ⟨-, h2⟩
    · exact absurd h1 (lt_irrefl _)
    · exact h2

/-- The two-group behaviour of the phased sort (`hasDateCol = true`): when the
table holds exactly two items `a` (3 rows) and `b` (5 rows) and `b`'s earliest
row-level date is not later than `a`'s, the output is `b`'s block followed by
`a`'s block, each block internally ordered by (row date, price-missing flag,
numeric price). -/
theorem phasedSort_two_groups {α β : Type} [DecidableEq β] (item : α → β)
    (itemNum : α → WithTop ℚ) (rowDate : α → WithTop ℤ) (price : α → WithTop ℚ)
    (l : List α) (a b : β) (hab : a ≠ b)
    (hmem : ∀ r ∈ l, item r = b ∨ item r = a)
    (hca : l.countP (fun r => item r = a) = 3)
    (hcb : l.countP (fun r => item r = b) = 5)
    (hdate : groupMinDate item rowDate l b ≤ groupMinDate item rowDate l a) :
    ∃ bs as', phasedSort item itemNum rowDate true price l = bs ++ as' ∧
      (∀ r ∈ bs, item r = b) ∧ (∀ r ∈ as', item r = a) ∧
      bs.length = 5 ∧ as'.length = 3 ∧
      (phasedSort item itemNum rowDate true price l).Perm l ∧
      bs.Pairwise (keyLe (fun r => toLex (rowDate r,
        toLex ((decide (price r = ⊤) : Bool), price r)))) ∧
      as'.Pairwise (keyLe (fun r => toLex (rowDate r,
        toLex ((decide (price r = ⊤) : Bool), price r)))) := by
  have h2 := phase2_split item a b hab l (List.insertionSort (keyLe itemNum) l)
    (List.perm_insertionSort _ _) hmem hca hcb
  have h25 := phase25_split item rowDate a b l _ h2.1 h2.2 hmem hdate
  have h3 := phase3_final item rowDate price a b hab l _ h25.1 h25.2 hca hcb
  obtain ⟨bs, as', heq, hbs, has, hlb, hla, hperm3, hwb, hwa⟩ := h3
  exact ⟨bs, as', heq, hbs, has, hlb, hla, hperm3, hwb, hwa⟩

/-- A row of the price-only frame as the ranker keys it: the raw `Item` cell
(the groupby key), the parsed numeric Item, the parsed row-level
`Loading Start Date`, the parsed numeric price (`⊤` = missing for all three),
and a row id standing for the remaining report columns. -/
structure PriceRow where
  item : String
  itemNum : WithTop ℚ
  startDate : WithTop ℤ
  price : WithTop ℚ
  rid : ℕ
deriving DecidableEq

/-- The Multi-Phase Ranker of `summarize_books` on price-only rows, with the
`Loading Start Date` column present. -/
def rankAdLidRows (l : List PriceRow) : List PriceRow :=
  phasedSort PriceRow.item PriceRow.itemNum PriceRow.startDate true PriceRow.price l

/-- Item A (`"1"`, 3 rows, earliest date 0) and Item B (`"2"`, 5 rows,
earliest date 100), interleaved. -/
def ceList : List PriceRow :=
  [⟨"2", ((2 : ℚ) : WithTop ℚ), ((100 : ℤ) : WithTop ℤ), ((5 : ℚ) : WithTop ℚ), 0⟩,
   ⟨"1", ((1 : ℚ) : WithTop ℚ), ((0 : ℤ) : WithTop ℤ), ((1 : ℚ) : WithTop ℚ), 1⟩,
   ⟨"2", ((2 : ℚ) : WithTop ℚ), ((101 : ℤ) : WithTop ℤ), ((4 : ℚ) : WithTop ℚ), 2⟩,
   ⟨"1", ((1 : ℚ) : WithTop ℚ), ((1 : ℤ) : WithTop ℤ), ((2 : ℚ) : WithTop ℚ), 3⟩,
   ⟨"2", ((2 : ℚ) : WithTop ℚ), ((102 : ℤ) : WithTop ℤ), ((3 : ℚ) : WithTop ℚ), 4⟩,
   ⟨"1", ((1 : ℚ) : WithTop ℚ), ((2 : ℤ) : WithTop ℤ), ((3 : ℚ) : WithTop ℚ), 5⟩,
   ⟨"2", ((2 : ℚ) : WithTop ℚ), ((103 : ℤ) : WithTop ℤ), ((2 : ℚ) : WithTop ℚ), 6⟩,
   ⟨"2", ((2 : ℚ) : WithTop ℚ), ((104 : ℤ) : WithTop ℤ), ((1 : ℚ) : WithTop ℚ), 7⟩]

/-- C2 counterexample: on `ceList` Item B (`"2"`) has 5 rows and Item A
(`"1"`) has 3, yet after the ranker the 3-row item's rows come first, because
phase 2.5 re-orders the groups by earliest `Loading Start Date` — so "B's
rows precede A's rows regardless" is false. -/
theorem C2_ranker_counterexample :
    ceList.countP (fun r => r.item = "1") = 3 ∧
    ceList.countP (fun r => r.item = "2") = 5 ∧
    (rankAdLidRows ceList).map PriceRow.item =
      ["1", "1", "1", "2", "2", "2", "2", "2"] ∧
    (rankAdLidRows ceList).map PriceRow.item ≠
      ["2", "2", "2", "2", "2", "1", "1", "1"] := by
  refine ⟨by decide, by decide, by decide, by decide⟩

/-- C2 amended: for a price-only table with exactly two items, A with 3 rows
and B with 5, and B's earliest row-level parsed Loading Start Date no later
than A's (missing dates count as latest), the ranker puts B's rows first as a
contiguous block followed by A's rows, the output is a permutation of the
input, and within each block rows are ordered by ascending row-level Loading
Start Date, then price presence (missing prices last), then ascending numeric
price. -/
theorem C2_ranker_amended (l : List PriceRow) (a b : String) (hab : a ≠ b)
    (hmem : ∀ r ∈ l, r.item = b ∨ r.item = a)
    (hca : l.countP (fun r => r.item = a) = 3)
    (hcb : l.countP (fun r => r.item = b) = 5)
    (hdate : groupMinDate PriceRow.item PriceRow.startDate l b ≤
      groupMinDate PriceRow.item PriceRow.startDate l a) :
    ∃ bs as', rankAdLidRows l = bs ++ as' ∧
      (∀ r ∈ bs, r.item = b) ∧ (∀ r ∈ as', r.item = a) ∧
      bs.length = 5 ∧ as'.length = 3 ∧
      (rankAdLidRows l).Perm l ∧
      bs.Pairwise (keyLe (fun r => toLex (r.startDate,
        toLex ((decide (r.price = ⊤) : Bool), r.price)))) ∧
      as'.Pairwise (keyLe (fun r => toLex (r.startDate,
        toLex ((decide (r.price = ⊤) : Bool), r.price)))) :=
  phasedSort_two_groups PriceRow.item PriceRow.itemNum PriceRow.startDate
    PriceRow.price l a b hab hmem hca hcb hdate

/-- Item B (`"9"`, 5 rows, dates from 0) and Item A (`"4"`, 3 rows, dates from
50), interleaved: here B's earliest date is sooner. -/
def wList : List PriceRow :=
  [⟨"4", ((4 : ℚ) : WithTop ℚ), ((50 : ℤ) : WithTop ℤ), ((1 : ℚ) : WithTop ℚ), 0⟩,
   ⟨"9", ((9 : ℚ) : WithTop ℚ), ((0 : ℤ) : WithTop ℤ), ((7 : ℚ) : WithTop ℚ), 1⟩,
   ⟨"9", ((9 : ℚ) : WithTop ℚ), ((1 : ℤ) : WithTop ℤ), ⊤, 2⟩,
   ⟨"4", ((4 : ℚ) : WithTop ℚ), ((51 : ℤ) : WithTop ℤ), ((2 : ℚ) : WithTop ℚ), 3⟩,
   ⟨"9", ((9 : ℚ) : WithTop ℚ), ((1 : ℤ) : WithTop ℤ), ((6 : ℚ) : WithTop ℚ), 4⟩,
   ⟨"9", ((9 : ℚ) : WithTop ℚ), ((2 : ℤ) : WithTop ℤ), ((5 : ℚ) : WithTop ℚ), 5⟩,
   ⟨"4", ((4 : ℚ) : WithTop ℚ), ((52 : ℤ) : WithTop ℤ), ((3 : ℚ) : WithTop ℚ), 6⟩,
   ⟨"9", ((9 : ℚ) : WithTop ℚ), ((3 : ℤ) : WithTop ℤ), ((4 : ℚ) : WithTop ℚ), 7⟩]

/-- Witness for the amended C2 on `wList`. -/
theorem C2_ranker_amended_witness :
    ∃ bs as', rankAdLidRows wList = bs ++ as' ∧
      (∀ r ∈ bs, r.item = "9") ∧ (∀ r ∈ as', r.item = "4") ∧
      bs.length = 5 ∧ as'.length = 3 ∧
      (rankAdLidRows wList).Perm wList ∧
      bs.Pairwise (keyLe (fun r => toLex (r.startDate,
        toLex ((decide (r.price = ⊤) : Bool), r.price)))) ∧
      as'.Pairwise (keyLe (fun r => toLex (r.startDate,
        toLex ((decide (r.price = ⊤) : Bool), r.price)))) :=
  C2_ranker_amended wList "4" "9" (by decide) (by decide) (by decide) (by decide)
    (by decide)

/-! ## Block Orderer (`order_by_top_folder_block`, query.py 181-258) -/

/-- Python `str.lower()`, character-wise (the case-insensitive sort key). -/
def strLower (s : String) : String :=
  String.mk (s.data.map Char.toLower)

/-- A top-level folder row: `Type == "FOLDER"` and `Path == ""`. -/
def isAnchorRow (r : InvRow) : Bool :=
  r.type = "FOLDER" && r.path = ""

/-- The Name series of the anchor rows, in row order. -/
def anchorNames (df : List InvRow) : List String :=
  (df.filter isAnchorRow).map InvRow.name

/-- The anchor-name sort `sort_values(key=lambda s: s.str.lower())` is called
without `kind=`, so pandas uses numpy's default quicksort/introsort, which is
NOT stable: the relative order of distinct names with equal lowercase keys is
implementation-defined.  The model therefore takes the sort as a collaborator:
any function that returns a case-insensitively sorted permutation of its
input.  Theorems about the Block Orderer quantify over every such sorter. -/
structure LowerSorter where
  sortByLower : List String → List String
  perm : ∀ l, (sortByLower l).Perm l
  sorted : ∀ l, (sortByLower l).Pairwise (keyLe strLower)

/-- `sort_values(key=str.lower).unique()`: anchors case-insensitively sorted
by the (unstable, collaborator-supplied) sort, first occurrence kept. -/
def anchorsSorted (σ : LowerSorter) (df : List InvRow) : List String :=
  dropDuplicates (σ.sortByLower (anchorNames df))

/-- The rank of an anchor name in the sorted-unique anchor list (`anchor_rank`
dict); `none` when the name is not an anchor name (dict miss, pandas `NaN`). -/
def rankOf (S : List String) (n : String) : Option ℤ :=
  if n ∈ S then some (S.indexOf n : ℤ) else Option.none

/-- `root_group_order`: where rows without an anchor go. -/
def rootRank (pos : String) (S : List String) : ℤ :=
  if pos = "top" then -1 else (S.length : ℤ)

/-- `__depth`: number of "/"-segments of the Path, 0 for the empty path. -/
def depthOf (p : String) : ℕ :=
  if p = "" then 0 else (p.splitOn "/").length

/-- `_anchor`: a top-level folder row anchors itself; any other row with a
non-empty path anchors at its first path segment; a root file has no anchor. -/
def anchorOf (r : InvRow) : Option String :=
  if r.type = "FOLDER" ∧ r.path = "" then some r.name
  else if r.path ≠ "" then some ((r.path.splitOn "/").headD "") else Option.none

/-- `__type_order`: FOLDER 0, FILE 1, anything else 2 (the `fillna(2)`). -/
def typeOrder (t : String) : ℕ :=
  if t = "FOLDER" then 0 else if t = "FILE" then 1 else 2

/-- `__is_anchor_order`: 0 for the anchor row itself, 1 otherwise. -/
def isAnchorOrder (r : InvRow) : ℕ :=
  if isAnchorRow r then 0 else 1

/-- `__anchor_order`: the anchor's rank, or `root_group_order` for root files
and for anchors missing from the rank map. -/
def anchorOrderK (S : List String) (pos : String) (r : InvRow) : ℤ :=
  ((anchorOf r).bind (rankOf S)).getD (rootRank pos S)

/-- The composite sort key of `order_by_top_folder_block`:
`["__anchor_order", "__is_anchor_order", "__depth", "Path", "__type_order",
"Name"]`, lexicographically. -/
def rowKey (S : List String) (pos : String) (r : InvRow) :
    ℤ ×ₗ (ℕ ×ₗ (ℕ ×ₗ (String ×ₗ (ℕ ×ₗ String)))) :=
  toLex (anchorOrderK S pos r, toLex (isAnchorOrder r, toLex (depthOf r.path,
    toLex (r.path, toLex (typeOrder r.type, r.name)))))

/-- `order_by_top_folder_block`: one stable sort of the rows by the composite
key (`kind="mergesort"`), with the anchor ranks taken from the
collaborator-sorted anchor list. -/
def order_by_top_folder_block (σ : LowerSorter) (root_position : String)
    (df : List InvRow) : List InvRow :=
  List.insertionSort (keyLe (rowKey (anchorsSorted σ df) root_position)) df

theorem mem_dropDupAux {β : Type} [DecidableEq β] :
    ∀ (l seen : List β) (x : β), x ∈ dropDupAux l seen ↔ x ∈ l ∧ x ∉ seen := by
  intro l
  induction l with
  | nil => intro seen x; simp [dropDupAux]
  | cons a t ih =>
    intro seen x
    by_cases ha : a ∈ seen
    · rw [dropDupAux, if_pos ha, ih]
      constructor
      · rintro ⟨hx, hs⟩
        exact ⟨by simp [hx], hs⟩
      · rintro ⟨hx, hs⟩
        rcases List.mem_cons.1 hx with rfl | hx'
        · exact absurd ha hs
        · exact ⟨hx', hs⟩
    · rw [dropDupAux, if_neg ha]
      constructor
      · intro hx
        rcases List.mem_cons.1 hx with rfl | hx'
        · exact ⟨by simp, ha⟩
        · obtain ⟨h1, h2⟩ := (ih (a :: seen) x).1 hx'
          exact ⟨by simp [h1], fun hs => h2 (by simp [hs])⟩
      · rintro ⟨hx, hs⟩
        rcases List.mem_cons.1 hx with rfl | hx'
        · exact List.mem_cons_self _ _
        · by_cases hxa : x = a
          · subst hxa; exact List.mem_cons_self _ _
          · exact List.mem_cons_of_mem _ ((ih (a :: seen) x).2
              ⟨hx', by simp [hxa, hs]⟩)

theorem mem_dropDuplicates {β : Type} [DecidableEq β] (l : List β) (x : β) :
    x ∈ dropDuplicates l ↔ x ∈ l := by
  rw [dropDuplicates, mem_dropDupAux]
  simp

theorem nodup_dropDupAux {β : Type} [DecidableEq β] :
    ∀ (l seen : List β), (dropDupAux l seen).Nodup := by
  intro l
  induction l with
  | nil => intro seen; simp [dropDupAux]
  | cons a t ih =>
    intro seen
    by_cases ha : a ∈ seen
    · rw [dropDupAux, if_pos ha]
      exact ih seen
    · rw [dropDupAux, if_neg ha]
      refine List.nodup_cons.2 ⟨?_, ih (a :: seen)⟩
      intro hmem
      exact ((mem_dropDupAux t (a :: seen) a).1 hmem).2 (by simp)

theorem nodup_dropDuplicates {β : Type} [DecidableEq β] (l : List β) :
    (dropDuplicates l).Nodup :=
  nodup_dropDupAux l []

theorem sublist_dropDupAux {β : Type} [DecidableEq β] :
    ∀ (l seen : List β), List.Sublist (dropDupAux l seen) l := by
  intro l
  induction l with
  | nil => intro seen; simp [dropDupAux]
  | cons a t ih =>
    intro seen
    by_cases ha : a ∈ seen
    · rw [dropDupAux, if_pos ha]
      exact (ih seen).cons a
    · rw [dropDupAux, if_neg ha]
      exact (ih (a :: seen)).cons₂ a

theorem dropDupAux_congr_seen {β : Type} [DecidableEq β] :
    ∀ (l s₁ s₂ : List β), (∀ x, x ∈ s₁ ↔ x ∈ s₂) →
      dropDupAux l s₁ = dropDupAux l s₂ := by
  intro l
  induction l with
  | nil => intro s₁ s₂ _; rfl
  | cons a t ih =>
    intro s₁ s₂ h
    by_cases ha : a ∈ s₁
    · rw [dropDupAux, if_pos ha, dropDupAux, if_pos ((h a).1 ha)]
      exact ih s₁ s₂ h
    · rw [dropDupAux, if_neg ha, dropDupAux, if_neg (fun hm => ha ((h a).2 hm))]
      rw [ih (a :: s₁) (a :: s₂) (fun x => by simp [h x])]

theorem dropDupAux_filter_ne {β : Type} [DecidableEq β] (a : β) :
    ∀ (l seen : List β),
      dropDupAux l (a :: seen) = dropDupAux (l.filter (fun x => decide (x ≠ a))) seen := by
  intro l
  induction l with
  | nil => intro seen; rfl
  | cons x t ih =>
    intro seen
    by_cases hxa : x = a
    · subst hxa
      rw [dropDupAux, if_pos (by simp), List.filter_cons_of_neg (by simp)]
      exact ih seen
    · rw [List.filter_cons_of_pos (by simp [hxa])]
      by_cases hxs : x ∈ seen
      · rw [dropDupAux, if_pos (by simp [hxs]), dropDupAux, if_pos hxs]
        exact ih seen
      · rw [dropDupAux, if_neg (by simp [hxa, hxs]), dropDupAux, if_neg hxs]
        rw [dropDupAux_congr_seen t (x :: a :: seen) (a :: x :: seen)
          (fun z => by simp; tauto)]
        rw [ih (x :: seen)]

theorem dropDuplicates_cons {β : Type} [DecidableEq β] (a : β) (l : List β) :
    dropDuplicates (a :: l) =
      a :: dropDuplicates (l.filter (fun x => decide (x ≠ a))) := by
  rw [dropDuplicates, dropDupAux, if_neg (List.not_mem_nil a),
    dropDupAux_filter_ne a l [], dropDuplicates]

theorem dropDuplicates_eq_of_ranked {β : Type} [DecidableEq β] :
    ∀ (S : List β), S.Nodup → ∀ (L : List β),
      (∀ z ∈ L, z ∈ S) → (∀ s ∈ S, s ∈ L) →
      L.Pairwise (fun m n => S.indexOf m ≤ S.indexOf n) →
      dropDuplicates L = S := by
  intro S
  induction S with
  | nil =>
    intro _ L hLS _ _
    cases L with
    | nil => rfl
    | cons z L' => exact absurd (hLS z (by simp)) (by simp)
  | cons s₀ S' ih =>
    intro hnd L hLS hSL hpw
    cases L with
    | nil => exact absurd (hSL s₀ (by simp)) (by simp)
    | cons z L' =>
      have hz : z = s₀ := by
        have hzS : z ∈ s₀ :: S' := hLS z (by simp)
        rcases List.mem_cons.1 hzS with h | h
        · exact h
        · have hs₀ : s₀ ∈ z :: L' := hSL s₀ (by simp)
          rcases List.mem_cons.1 hs₀ with h0 | h0
          · exact h0.symm
          · have hle := List.rel_of_pairwise_cons hpw h0
            rw [List.indexOf_cons_self] at hle
            by_cases hzs : s₀ = z
            · exact hzs.symm
            · rw [List.indexOf_cons_ne _ hzs] at hle
              exact absurd hle (by omega)
      subst hz
      rw [dropDuplicates_cons]
      have hndS' : S'.Nodup := (List.nodup_cons.1 hnd).2
      have hz₀ : z ∉ S' := (List.nodup_cons.1 hnd).1
      congr 1
      refine ih hndS' (L'.filter (fun x => decide (x ≠ z))) ?_ ?_ ?_
      · intro x hx
        have hx' := List.mem_filter.1 hx
        have hxz : x ≠ z := by simpa using hx'.2
        have hxS : x ∈ z :: S' := hLS x (List.mem_cons_of_mem _ hx'.1)
        rcases List.mem_cons.1 hxS with h | h
        · exact absurd h hxz
        · exact h
      · intro s hs
        have hsz : s ≠ z := fun h => hz₀ (h ▸ hs)
        have hsL : s ∈ z :: L' := hSL s (List.mem_cons_of_mem _ hs)
        rcases List.mem_cons.1 hsL with h | h
        · exact absurd h hsz
        · exact List.mem_filter.2 ⟨h, by simpa using hsz⟩
      · have hpw' : L'.Pairwise (fun m n => (z :: S').indexOf m ≤ (z :: S').indexOf n) :=
          hpw.of_cons
        have hpwf := hpw'.sublist
          (show List.Sublist (L'.filter (fun x => decide (x ≠ z))) L' from
            List.filter_sublist L')
        refine hpwf.imp_of_mem ?_
        intro m n hm hn hle
        have hmz : m ≠ z := by simpa using (List.mem_filter.1 hm).2
        have hnz : n ≠ z := by simpa using (List.mem_filter.1 hn).2
        rw [List.indexOf_cons_ne _ (fun h => hmz h.symm),
          List.indexOf_cons_ne _ (fun h => hnz h.symm)] at hle
        omega

theorem filter_orderedInsert_sorted {α : Type} {r : α → α → Prop} [DecidableRel r]
    [IsTotal α r] [IsTrans α r] (q : α → Bool) (x : α) :
    ∀ l : List α, l.Pairwise r →
      (List.orderedInsert r x l).filter q =
        if q x then List.orderedInsert r x (l.filter q) else l.filter q := by
  intro l
  induction l with
  | nil =>
    intro _
    cases hq : q x <;> simp [List.orderedInsert, hq]
  | cons b t ih =>
    intro hp
    by_cases hr : r x b
    · rw [List.orderedInsert, if_pos hr]
      cases hq : q x
      · rw [List.filter_cons_of_neg (by simp [hq]), if_neg (by simp [hq])]
      · rw [List.filter_cons_of_pos (by simp [hq]), if_pos (by simp [hq])]
        have hhead : ∀ c ∈ (b :: t).filter q, r x c := by
          intro c hc
          have hcm : c ∈ b :: t := List.mem_of_mem_filter hc
          rcases List.mem_cons.1 hcm with rfl | hct
          · exact hr
          · exact Trans.trans hr (List.rel_of_pairwise_cons hp hct)
        cases hf : (b :: t).filter q with
        | nil => rfl
        | cons c rest =>
          rw [List.orderedInsert, if_pos (hhead c (by rw [hf]; simp))]
    · rw [List.orderedInsert, if_neg hr]
      cases hqb : q b
      · rw [List.filter_cons_of_neg (by simp [hqb]),
          List.filter_cons_of_neg (by simp [hqb]), ih hp.of_cons]
      · rw [List.filter_cons_of_pos (by simp [hqb]),
          List.filter_cons_of_pos (by simp [hqb]), ih hp.of_cons]
        cases hq : q x
        · rw [if_neg (by simp [hq]), if_neg (by simp [hq])]
        · rw [if_pos (by simp [hq]), if_pos (by simp [hq]),
            List.orderedInsert, if_neg hr]

theorem filter_insertionSort {α : Type} {r : α → α → Prop} [DecidableRel r]
    [IsTotal α r] [IsTrans α r] (q : α → Bool) :
    ∀ l : List α,
      (List.insertionSort r l).filter q = List.insertionSort r (l.filter q) := by
  intro l
  induction l with
  | nil => rfl
  | cons a t ih =>
    rw [List.insertionSort,
      filter_orderedInsert_sorted q a _ (List.sorted_insertionSort r t)]
    cases hq : q a
    · rw [List.filter_cons_of_neg (by simp [hq]), ih, if_neg (by simp)]
    · rw [List.filter_cons_of_pos (by simp [hq]), ih, List.insertionSort, if_pos rfl]

theorem map_orderedInsert_of_iff {α γ : Type} {r : α → α → Prop} {r' : γ → γ → Prop}
    [DecidableRel r] [DecidableRel r'] (g : α → γ) (x : α) :
    ∀ l : List α, (∀ y ∈ l, r x y ↔ r' (g x) (g y)) →
      (List.orderedInsert r x l).map g = List.orderedInsert r' (g x) (l.map g) := by
  intro l
  induction l with
  | nil => intro _; rfl
  | cons y t ih =>
    intro h
    by_cases hr : r x y
    · rw [List.orderedInsert, if_pos hr, List.map_cons, List.map_cons,
        List.orderedInsert, if_pos ((h y (by simp)).1 hr)]
    · rw [List.orderedInsert, if_neg hr, List.map_cons, List.map_cons,
        List.orderedInsert, if_neg (fun hc => hr ((h y (by simp)).2 hc))]
      rw [ih (fun z hz => h z (by simp [hz]))]

theorem map_insertionSort_of_iff {α γ : Type} {r : α → α → Prop} {r' : γ → γ → Prop}
    [DecidableRel r] [DecidableRel r'] (g : α → γ) :
    ∀ l : List α, (∀ x ∈ l, ∀ y ∈ l, r x y ↔ r' (g x) (g y)) →
      (List.insertionSort r l).map g = List.insertionSort r' (l.map g) := by
  intro l
  induction l with
  | nil => intro _; rfl
  | cons a t ih =>
    intro h
    rw [List.insertionSort, List.map_cons, List.insertionSort]
    rw [map_orderedInsert_of_iff g a _ (fun y hy =>
      h a (by simp) y (by simp [(List.mem_insertionSort r).1 hy]))]
    rw [ih (fun x hx y hy => h x (by simp [hx]) y (by simp [hy]))]

theorem lex_anchor_collapse (i j : ℤ) (nx ny : String) :
    (toLex (i, toLex ((0:ℕ), toLex ((0:ℕ), toLex ("", toLex ((0:ℕ), nx))))) ≤
      toLex (j, toLex ((0:ℕ), toLex ((0:ℕ), toLex ("", toLex ((0:ℕ), ny)))))) ↔
    toLex (i, nx) ≤ toLex (j, ny) := by
  simp [Prod.Lex.le_iff]

theorem rowKey_anchor (S : List String) (pos : String) {r : InvRow}
    (hA : isAnchorRow r = true) (hS : r.name ∈ S) :
    rowKey S pos r =
      toLex (((S.indexOf r.name : ℤ)),
        toLex ((0:ℕ), toLex ((0:ℕ), toLex ("", toLex ((0:ℕ), r.name))))) := by
  have hA' := hA
  simp only [isAnchorRow, Bool.and_eq_true, decide_eq_true_eq] at hA'
  obtain ⟨ht, hp⟩ := hA'
  rw [rowKey, anchorOrderK, anchorOf, if_pos ⟨ht, hp⟩]
  rw [show (some r.name).bind (rankOf S) = rankOf S r.name from rfl]
  rw [rankOf, if_pos hS, Option.getD_some]
  rw [isAnchorOrder, if_pos hA, hp, ht]
  rfl

theorem anchorNames_orderBlock (σ : LowerSorter) (df : List InvRow) (pos : String) :
    anchorNames (order_by_top_folder_block σ pos df) =
      List.insertionSort
        (keyLe (fun n => toLex (((anchorsSorted σ df).indexOf n : ℤ), n)))
        (anchorNames df) := by
  have hmemS : ∀ n, n ∈ anchorNames df → n ∈ anchorsSorted σ df := by
    intro n hn
    rw [anchorsSorted, mem_dropDuplicates]
    exact ((σ.perm _).mem_iff).2 hn
  rw [anchorNames, order_by_top_folder_block, filter_insertionSort]
  have hiff : ∀ x ∈ df.filter isAnchorRow, ∀ y ∈ df.filter isAnchorRow,
      keyLe (rowKey (anchorsSorted σ df) pos) x y ↔
      keyLe (fun n => toLex (((anchorsSorted σ df).indexOf n : ℤ), n))
        (InvRow.name x) (InvRow.name y) := by
    intro x hx y hy
    have hxA : isAnchorRow x = true := (List.mem_filter.1 hx).2
    have hyA : isAnchorRow y = true := (List.mem_filter.1 hy).2
    have hxS : x.name ∈ anchorsSorted σ df :=
      hmemS _ (List.mem_map.2 ⟨x, hx, rfl⟩)
    have hyS : y.name ∈ anchorsSorted σ df :=
      hmemS _ (List.mem_map.2 ⟨y, hy, rfl⟩)
    show keyLe (rowKey (anchorsSorted σ df) pos) x y ↔ _
    rw [keyLe, rowKey_anchor _ pos hxA hxS, rowKey_anchor _ pos hyA hyS]
    exact lex_anchor_collapse _ _ _ _
  rw [map_insertionSort_of_iff InvRow.name (df.filter isAnchorRow) hiff]
  rfl

theorem sorted_perm_eq_of_lower_inj :
    ∀ (L₁ L₂ : List String), L₁.Perm L₂ →
      L₁.Pairwise (keyLe strLower) → L₂.Pairwise (keyLe strLower) →
      (∀ m ∈ L₁, ∀ n ∈ L₁, strLower m = strLower n → m = n) →
      L₁ = L₂ := by
  intro L₁
  induction L₁ with
  | nil =>
    intro L₂ hp _ _ _
    exact hp.nil_eq
  | cons a t ih =>
    intro L₂ hp hs₁ hs₂ hinj
    cases L₂ with
    | nil => exact absurd hp.eq_nil (by simp)
    | cons b t₂ =>
      have hab : a = b := by
        by_contra hne
        have hat₂ : a ∈ t₂ := by
          have ham : a ∈ b :: t₂ := hp.mem_iff.1 (by simp)
          rcases List.mem_cons.1 ham with h | h
          · exact absurd h hne
          · exact h
        have hbt : b ∈ t := by
          have hbm : b ∈ a :: t := hp.mem_iff.2 (by simp)
          rcases List.mem_cons.1 hbm with h | h
          · exact absurd h.symm hne
          · exact h
        have h₁ : strLower a ≤ strLower b := List.rel_of_pairwise_cons hs₁ hbt
        have h₂ : strLower b ≤ strLower a := List.rel_of_pairwise_cons hs₂ hat₂
        exact hne (hinj a (by simp) b (by simp [hbt]) (le_antisymm h₁ h₂))
      subst hab
      have hpt : t.Perm t₂ := hp.cons_inv
      rw [ih t₂ hpt hs₁.of_cons hs₂.of_cons
        (fun m hm n hn he => hinj m (by simp [hm]) n (by simp [hn]) he)]

theorem anchorsSorted_orderBlock (σ : LowerSorter) (df : List InvRow) (pos : String)
    (hinj : ∀ m ∈ anchorNames df, ∀ n ∈ anchorNames df,
      strLower m = strLower n → m = n) :
    anchorsSorted σ (order_by_top_folder_block σ pos df) = anchorsSorted σ df := by
  have hSnodup : (anchorsSorted σ df).Nodup := nodup_dropDuplicates _
  have hSmem : ∀ n, n ∈ anchorsSorted σ df ↔ n ∈ anchorNames df := by
    intro n
    rw [anchorsSorted, mem_dropDuplicates]
    exact (σ.perm _).mem_iff
  have hSsorted : (anchorsSorted σ df).Pairwise (keyLe strLower) :=
    List.Pairwise.sublist (sublist_dropDupAux _ _) (σ.sorted (anchorNames df))
  have hlowmono : ∀ m n, m ∈ anchorsSorted σ df → n ∈ anchorsSorted σ df →
      (anchorsSorted σ df).indexOf m < (anchorsSorted σ df).indexOf n →
      keyLe strLower m n := by
    intro m n hm hn hlt
    have hmlen : (anchorsSorted σ df).indexOf m < (anchorsSorted σ df).length :=
      List.indexOf_lt_length.2 hm
    have hnlen : (anchorsSorted σ df).indexOf n < (anchorsSorted σ df).length :=
      List.indexOf_lt_length.2 hn
    have hpg := List.pairwise_iff_get.1 hSsorted ⟨_, hmlen⟩ ⟨_, hnlen⟩ hlt
    rwa [List.indexOf_get, List.indexOf_get] at hpg
  have hA'pw := List.sorted_insertionSort
    (keyLe (fun n => toLex (((anchorsSorted σ df).indexOf n : ℤ), n))) (anchorNames df)
  have hA'mem : ∀ z ∈ List.insertionSort
      (keyLe (fun n => toLex (((anchorsSorted σ df).indexOf n : ℤ), n))) (anchorNames df),
      z ∈ anchorsSorted σ df := by
    intro z hz
    exact (hSmem z).2 ((List.mem_insertionSort _).1 hz)
  have hA'lower : (List.insertionSort
      (keyLe (fun n => toLex (((anchorsSorted σ df).indexOf n : ℤ), n)))
      (anchorNames df)).Pairwise (keyLe strLower) := by
    refine hA'pw.imp_of_mem ?_
    intro m n hm hn hle
    have hmS := hA'mem m hm
    have hnS := hA'mem n hn
    have hle' : toLex (((anchorsSorted σ df).indexOf m : ℤ), m) ≤
        toLex (((anchorsSorted σ df).indexOf n : ℤ), n) := hle
    rcases (Prod.Lex.le_iff _ _).1 hle' with hlt | ⟨heq, -⟩
    · have hlt2 : ((anchorsSorted σ df).indexOf m : ℤ) <
          ((anchorsSorted σ df).indexOf n : ℤ) := hlt
      exact hlowmono m n hmS hnS (by exact_mod_cast hlt2)
    · have heq2 : ((anchorsSorted σ df).indexOf m : ℤ) =
          ((anchorsSorted σ df).indexOf n : ℤ) := heq
      have hmn : m = n := (List.indexOf_inj hmS hnS).1 (by exact_mod_cast heq2)
      subst hmn
      exact le_refl (strLower m)
  have hranked : (List.insertionSort
      (keyLe (fun n => toLex (((anchorsSorted σ df).indexOf n : ℤ), n)))
      (anchorNames df)).Pairwise
        (fun m n => (anchorsSorted σ df).indexOf m ≤ (anchorsSorted σ df).indexOf n) := by
    refine hA'pw.imp_of_mem ?_
    intro m n _ _ hle
    have hle' : toLex (((anchorsSorted σ df).indexOf m : ℤ), m) ≤
        toLex (((anchorsSorted σ df).indexOf n : ℤ), n) := hle
    rcases (Prod.Lex.le_iff _ _).1 hle' with hlt | ⟨heq, -⟩
    · have hlt2 : ((anchorsSorted σ df).indexOf m : ℤ) <
          ((anchorsSorted σ df).indexOf n : ℤ) := hlt
      have hlt' : (anchorsSorted σ df).indexOf m < (anchorsSorted σ df).indexOf n := by
        exact_mod_cast hlt2
      omega
    · have heq2 : ((anchorsSorted σ df).indexOf m : ℤ) =
          ((anchorsSorted σ df).indexOf n : ℤ) := heq
      have heq' : (anchorsSorted σ df).indexOf m = (anchorsSorted σ df).indexOf n := by
        exact_mod_cast heq2
      omega
  have hσA' : σ.sortByLower (List.insertionSort
      (keyLe (fun n => toLex (((anchorsSorted σ df).indexOf n : ℤ), n)))
      (anchorNames df)) = List.insertionSort
      (keyLe (fun n => toLex (((anchorsSorted σ df).indexOf n : ℤ), n)))
      (anchorNames df) := by
    refine sorted_perm_eq_of_lower_inj _ _ (σ.perm _) (σ.sorted _) hA'lower ?_
    intro m hm n hn he
    have hmA : m ∈ anchorNames df :=
      (List.mem_insertionSort _).1 ((σ.perm _).mem_iff.1 hm)
    have hnA : n ∈ anchorNames df :=
      (List.mem_insertionSort _).1 ((σ.perm _).mem_iff.1 hn)
    exact hinj m hmA n hnA he
  show dropDuplicates (σ.sortByLower
      (anchorNames (order_by_top_folder_block σ pos df))) = anchorsSorted σ df
  rw [anchorNames_orderBlock, hσA']
  exact dropDuplicates_eq_of_ranked (anchorsSorted σ df) hSnodup _ hA'mem
    (fun s hs => (List.mem_insertionSort _).2 ((hSmem s).1 hs)) hranked

/-- The stable instantiation of the anchor sort (what the model would be if
pandas sorted stably here). -/
def stableLowerSorter : LowerSorter where
  sortByLower := fun l => List.insertionSort (keyLe strLower) l
  perm := fun l => List.perm_insertionSort _ l
  sorted := fun l => List.sorted_insertionSort _ l

/-- A sorter that is compliant (returns a case-insensitively sorted
permutation) yet on the two case-colliding inputs made of "B" and "b" returns
the opposite order each time — behaviour an unstable quicksort is free to
exhibit. -/
def badSorter : LowerSorter where
  sortByLower := fun l =>
    if l = ["B", "b"] then ["b", "B"]
    else if l = ["b", "B"] then ["B", "b"]
    else List.insertionSort (keyLe strLower) l
  perm := by
    intro l
    by_cases h1 : l = ["B", "b"]
    · subst h1
      show (["b", "B"] : List String).Perm ["B", "b"]
      decide
    · by_cases h2 : l = ["b", "B"]
      · subst h2
        show (["B", "b"] : List String).Perm ["b", "B"]
        decide
      · show (if l = ["B", "b"] then ["b", "B"]
            else if l = ["b", "B"] then ["B", "b"]
            else List.insertionSort (keyLe strLower) l).Perm l
        rw [if_neg h1, if_neg h2]
        exact List.perm_insertionSort _ l
  sorted := by
    intro l
    by_cases h1 : l = ["B", "b"]
    · subst h1
      show List.Pairwise (keyLe strLower) ["b", "B"]
      refine List.pairwise_cons.2 ⟨?_, by simp⟩
      intro n hn
      have hn' : n = "B" := by simpa using hn
      subst hn'
      show strLower "b" ≤ strLower "B"
      rw [show strLower "b" = "b" from by decide,
        show strLower "B" = "b" from by decide]
    · by_cases h2 : l = ["b", "B"]
      · subst h2
        show List.Pairwise (keyLe strLower) ["B", "b"]
        refine List.pairwise_cons.2 ⟨?_, by simp⟩
        intro n hn
        have hn' : n = "b" := by simpa using hn
        subst hn'
        show strLower "B" ≤ strLower "b"
        rw [show strLower "b" = "b" from by decide,
          show strLower "B" = "b" from by decide]
      · show List.Pairwise (keyLe strLower) (if l = ["B", "b"] then ["b", "B"]
            else if l = ["b", "B"] then ["B", "b"]
            else List.insertionSort (keyLe strLower) l)
        rw [if_neg h1, if_neg h2]
        exact List.sorted_insertionSort _ l

/-- Two top-level folders whose names differ only by case. -/
def dfBad : List InvRow :=
  [⟨"FOLDER", "B", "", "", "idB", 0⟩, ⟨"FOLDER", "b", "", "", "idb", 1⟩]

/-- C3, counterexample: with a compliant but unstable anchor sort (which the
default-quicksort `sort_values(key=str.lower)` is allowed to be) and two
top-level folders named "B" and "b", ordering the ordered inventory again
flips the two rows: `order_by_top_folder_block` is not idempotent. -/
theorem C3_block_orderer_counterexample :
    order_by_top_folder_block badSorter "top"
        (order_by_top_folder_block badSorter "top" dfBad) ≠
      order_by_top_folder_block badSorter "top" dfBad := by
  decide

/-- C3, amended: for every compliant anchor sorter the Block Orderer's output
is a permutation of its input; and whenever no two distinct anchor names
collide case-insensitively, ordering an already-ordered inventory again
leaves it unchanged (`order_by_top_folder_block` is idempotent). -/
theorem C3_block_orderer_amended :
    (∀ (σ : LowerSorter) (df : List InvRow) (pos : String),
      (order_by_top_folder_block σ pos df).Perm df) ∧
    (∀ (σ : LowerSorter) (df : List InvRow) (pos : String),
      (∀ m ∈ anchorNames df, ∀ n ∈ anchorNames df,
        strLower m = strLower n → m = n) →
      order_by_top_folder_block σ pos (order_by_top_folder_block σ pos df) =
        order_by_top_folder_block σ pos df) := by
  constructor
  · intro σ df pos
    exact List.perm_insertionSort _ _
  · intro σ df pos hinj
    show List.insertionSort
      (keyLe (rowKey (anchorsSorted σ (order_by_top_folder_block σ pos df)) pos))
      (order_by_top_folder_block σ pos df) = order_by_top_folder_block σ pos df
    rw [anchorsSorted_orderBlock σ df pos hinj]
    exact List.Sorted.insertionSort_eq (List.sorted_insertionSort _ _)

/-- An inventory with case-distinct anchors: two week folders, a file inside
one of them and a root-level file. -/
def dfGood : List InvRow :=
  [⟨"FOLDER", "Week 47 Final Week 48 Initial", "", "", "f2", 0⟩,
   ⟨"FOLDER", "Week 46 Final Week 47 Initial", "", "", "f1", 1⟩,
   ⟨"FILE", "a.xlsx", "Week 46 Final Week 47 Initial", "xlsx", "id1", 2⟩,
   ⟨"FILE", "root.txt", "", "txt", "id9", 3⟩]

/-- Witness for the amended C3 on `dfGood` with the stable sorter. -/
theorem C3_block_orderer_amended_witness :
    (order_by_top_folder_block stableLowerSorter "top" dfGood).Perm dfGood ∧
    order_by_top_folder_block stableLowerSorter "top"
        (order_by_top_folder_block stableLowerSorter "top" dfGood) =
      order_by_top_folder_block stableLowerSorter "top" dfGood :=
  ⟨C3_block_orderer_amended.1 stableLowerSorter dfGood "top",
   C3_block_orderer_amended.2 stableLowerSorter dfGood "top" (by decide)⟩
